import Mathlib

/-!
Verification of the `VGeometry::VCurve` incremental curve-fitting pipeline
(`src/libs/VGeometry/VCurve.cpp`, `VCurveSample.h`).

The C++ code is shallowly embedded: `double` becomes `ℝ`, `glm::dvec2`
becomes `ℝ × ℝ`, `std::vector` becomes `List` (or `ℕ → α` with an explicit
size for the fixed-size subdivision scratch buffers), and the in-place loops
become folds or index maps that produce the same final contents.

External collaborators that are not part of the embedded sources
(`CubicCurve.h`'s quadratic fitter, `Algorithms.h`'s
`computeSupplementaryAngle` and `interpolateUsingDynLevin`) are kept fully
abstract as parameters, so every theorem below holds for any implementation
of them.
-/

set_option maxHeartbeats 1600000

open Classical

noncomputable section

/-- A 2D vector of doubles (`glm::dvec2`), modelled with real coordinates. -/
abbrev Vec2 : Type := ℝ × ℝ

/-- Euclidean norm `glm::length(v) = sqrt(v.x^2 + v.y^2)`. -/
def glmLength (v : Vec2) : ℝ := Real.sqrt (v.1 ^ 2 + v.2 ^ 2)

/-- The numerical precision constant `eps = 1e-10` used by `computeKnots_`
and `computeSamples_`. -/
def vceps : ℝ := 1e-10

/-- One raw input sample (`VCurveInputSample`): position, width, resolution. -/
structure VCurveInputSample where
  position : Vec2
  width : ℝ
  resolution : ℝ

/-- One knot (`VCurveKnot`): position, width, supplementary angle, corner flag. -/
structure VCurveKnot where
  position : Vec2
  width : ℝ
  angle : ℝ
  isCorner : Bool

/-- One curve sample (`VCurveSample` from `VCurveSample.h`).  The `angle`
field exists in the struct but is never assigned by `VCurve.cpp`
(indeterminate in C++); we model that unset field as `0`, and likewise the
tangent/normal of a sample before the tangent pass assigns them. -/
structure VCurveSample where
  position : Vec2
  width : ℝ
  tangent : Vec2
  normal : Vec2
  arclength : ℝ
  angle : ℝ

/-- The recognized parameters of `VCurveParams` used by `VCurve.cpp`. -/
structure VCurveParams where
  maxSmoothKnotAngle : ℝ
  maxSampleAngle : ℝ

/-- Modelled from the spec: the external collaborators of the core that are
not part of the embedded sources.  `fitQuadratic` returns a curve exposing
`pos : [0,1] → Vec2` (assumed total); `computeSupplementaryAngle` gives the
supplementary angle of three points; `dynLevinV`/`dynLevinS` are the 4-point
Dyn–Levin–Gregory midpoint refinement on vectors and scalars with a tension
parameter.  They are kept abstract: all theorems hold for any choice. -/
structure VCurveExternals where
  fitQuadratic : List Vec2 → ℝ → Vec2
  computeSupplementaryAngle : Vec2 → Vec2 → Vec2 → ℝ
  dynLevinV : Vec2 → Vec2 → Vec2 → Vec2 → ℝ → Vec2
  dynLevinS : ℝ → ℝ → ℝ → ℝ → ℝ → ℝ

/-- Default (value-initialized) input sample, used for out-of-range `getD`. -/
def defIS : VCurveInputSample := ⟨((0 : ℝ), (0 : ℝ)), 0, 0⟩

/-- Default (value-initialized) knot. -/
def defKnot : VCurveKnot := ⟨((0 : ℝ), (0 : ℝ)), 0, 0, false⟩

/-- Default (value-initialized) curve sample. -/
def defSample : VCurveSample :=
  ⟨((0 : ℝ), (0 : ℝ)), 0, ((0 : ℝ), (0 : ℝ)), ((0 : ℝ), (0 : ℝ)), 0, 0⟩

/-- `VCurve::appendInputSample_`: append the first sample unconditionally;
afterwards append a sample iff its distance from the last accepted sample
exceeds `0.1 * inputSample.resolution`, else discard it. -/
def appendInputSample (hist : List VCurveInputSample) (s : VCurveInputSample) :
    List VCurveInputSample :=
  if hist.isEmpty then [s]
  else
    let s0 := hist.getLastD defIS
    let ds := glmLength (s.position - s0.position)
    if ds > 0.1 * s.resolution then hist ++ [s] else hist

/-- `VCurve::computeRegWidths_`: 3-tap width smoothing.  End points get
`0.67·own + 0.33·neighbor` when `n > 1` (else their own width); interior
points get `0.25/0.50/0.25` of their neighborhood. -/
def computeRegWidths (inp : List VCurveInputSample) : List ℝ :=
  let n := inp.length
  (List.range n).map fun i =>
    if n = 1 then (inp.getD i defIS).width
    else if i = 0 then
      0.67 * (inp.getD 0 defIS).width + 0.33 * (inp.getD 1 defIS).width
    else if i = n - 1 then
      0.67 * (inp.getD (n-1) defIS).width + 0.33 * (inp.getD (n-2) defIS).width
    else
      0.25 * (inp.getD (i-1) defIS).width + 0.50 * (inp.getD i defIS).width +
        0.25 * (inp.getD (i+1) defIS).width

/-- `VCurve::computeRegFits_`: one quadratic fit per sliding window of
`numSamplesPerFit = min(5, n)` input positions; `numFits = n - k + 1`. -/
def computeRegFits (ext : VCurveExternals) (inp : List VCurveInputSample) :
    List (ℝ → Vec2) :=
  let n := inp.length
  let numSamplesPerFit := min 5 n
  let numFits := n - numSamplesPerFit + 1
  (List.range numFits).map fun i =>
    ext.fitQuadratic ((List.range numSamplesPerFit).map fun j =>
      (inp.getD (i + j) defIS).position)

/-- The bell-shaped blending kernel `w_(u) = u²(1-u)²` of `VCurve.cpp`. -/
def w_ (u : ℝ) : ℝ := u * u * (1 - u) * (1 - u)

/-- The inner loop of `VCurve::averageRegFits_` for one interior sample `i`:
accumulate `(pos, sumW)` over window offsets `j ∈ [1, numSamplesPerFit-2]`,
counting fit `k = i - j` whenever `0 ≤ k < numFits`. -/
def blendAt (regFits : List (ℝ → Vec2)) (numFits numSamplesPerFit i : ℕ) :
    Vec2 × ℝ :=
  (List.range' 1 (numSamplesPerFit - 2)).foldl
    (fun acc j =>
      -- uj = j/(numSamplesPerFit-1); posj = fit (i-j) at uj; add (wj*posj, wj)
      if j ≤ i ∧ i - j < numFits then
        (acc.1 + w_ ((j : ℝ) / ((numSamplesPerFit - 1 : ℕ) : ℝ)) •
            regFits.getD (i - j) (fun _ => ((0 : ℝ), (0 : ℝ)))
              ((j : ℝ) / ((numSamplesPerFit - 1 : ℕ) : ℝ)),
          acc.2 + w_ ((j : ℝ) / ((numSamplesPerFit - 1 : ℕ) : ℝ)))
      else acc)
    (((0 : ℝ), (0 : ℝ)), (0 : ℝ))

/-- `VCurve::averageRegFits_`: end positions are copied through; each
interior position is the kernel-weighted average `(1/sumW) • pos` of the
overlapping fits evaluated at the local parameter. -/
def averageRegFits (inp : List VCurveInputSample) (regFits : List (ℝ → Vec2)) :
    List Vec2 :=
  let n := inp.length
  let numFits := regFits.length
  let numSamplesPerFit := n - numFits + 1
  (List.range n).map fun i =>
    if i = 0 then (inp.getD 0 defIS).position
    else if i = n - 1 then (inp.getD (n-1) defIS).position
    else
      let pw := blendAt regFits numFits numSamplesPerFit i
      (1 / pw.2) • pw.1

/-- The duplicate-removing first pass of `VCurve::computeKnots_`: always keep
the first smoothed point as knot 0, keep a further point iff its distance
from the last kept knot exceeds `res`, and record the kept inter-knot
distances `d`. -/
def dedupPass (res : ℝ) (rpos : List Vec2) (rwid : List ℝ) :
    List VCurveKnot × List ℝ :=
  let k0 : VCurveKnot := ⟨rpos.getD 0 ((0 : ℝ), (0 : ℝ)), rwid.getD 0 0, 0, false⟩
  (List.range' 1 (rpos.length - 1)).foldl
    (fun acc i =>
      -- ds = distance from the last kept knot to smoothed position i
      if glmLength (rpos.getD i ((0 : ℝ), (0 : ℝ)) -
          (acc.1.getLastD k0).position) > res then
        (acc.1 ++ [⟨rpos.getD i ((0 : ℝ), (0 : ℝ)), rwid.getD i 0, 0, false⟩],
          acc.2 ++ [glmLength (rpos.getD i ((0 : ℝ), (0 : ℝ)) -
            (acc.1.getLastD k0).position)])
      else acc)
    ([k0], [])

/-- The angle passes of `VCurve::computeKnots_`: end knots get angle `0`,
interior knot `i` gets the supplementary angle of its two neighbors. -/
def setAngles (suppAngle : Vec2 → Vec2 → Vec2 → ℝ) (ks : List VCurveKnot) :
    List VCurveKnot :=
  let m := ks.length
  (List.range m).map fun i =>
    let k := ks.getD i defKnot
    if i = 0 ∨ i = m - 1 then { k with angle := 0 }
    else { k with angle := suppAngle (ks.getD (i-1) defKnot).position k.position
                             (ks.getD (i+1) defKnot).position }

/-- The in-place merge loop of `VCurve::computeKnots_` (read cursor `i1`,
write cursor `i2`), written functionally: each iteration looks at the window
`A,B,C,D` = `knots[i1-1..i1+2]` with the pre-merge distances
`AB = d[i1-1]`, `BC = d[i1]`, `CD = d[i1+1]`; if `4·BC < AB ∧ 4·BC < CD`
it emits the one of `B,C` with the larger angle and skips the other, else it
emits `B`.  The trailing `while` copies the remaining knots unchanged.
Here `i1` is the value of the C++ cursor before the `++i1` at the top of the
loop body, so the window starts at `ks[i1+1]`. -/
def mergeAux (ks : List VCurveKnot) (d : List ℝ) (m : ℕ) (i1 : ℕ) :
    List VCurveKnot :=
  if _h : i1 + 3 < m then
    -- B = ks[i1+1], C = ks[i1+2], AB = d[i1], BC = d[i1+1], CD = d[i1+2]
    if 4 * d.getD (i1+1) 0 < d.getD i1 0 ∧
        4 * d.getD (i1+1) 0 < d.getD (i1+2) 0 then
      (if (ks.getD (i1+1) defKnot).angle < (ks.getD (i1+2) defKnot).angle
        then ks.getD (i1+2) defKnot else ks.getD (i1+1) defKnot) ::
        mergeAux ks d m (i1+2)
    else ks.getD (i1+1) defKnot :: mergeAux ks d m (i1+1)
  else
    (List.range' (i1+1) (m - (i1+1))).map fun t => ks.getD t defKnot
termination_by m - i1

/-- The full merge pass: the first knot is never touched, then `mergeAux`
processes the rest (`knots_.resize(i2+1)` keeps exactly these knots). -/
def mergePass (ks : List VCurveKnot) (d : List ℝ) : List VCurveKnot :=
  if ks.isEmpty then [] else ks.getD 0 defKnot :: mergeAux ks d ks.length 0

/-- The classification pass of `VCurve::computeKnots_`: first and last knots
are corners; an interior knot is a corner iff its angle exceeds
`maxSmoothKnotAngle`. -/
def classifyCorners (maxSmoothKnotAngle : ℝ) (ks : List VCurveKnot) :
    List VCurveKnot :=
  let p := ks.length
  (List.range p).map fun i =>
    let k := ks.getD i defKnot
    if i = 0 ∨ i = p - 1 then { k with isCorner := true }
    else { k with isCorner := if k.angle > maxSmoothKnotAngle then true else false }

/-- `VCurve::computeKnots_`: dedup with
`resolution = max(10·eps, inputSamples[0].resolution)`, set angles, merge
nearby knots with `r = 4`, recompute angles, classify corners. -/
def computeKnots (params : VCurveParams) (ext : VCurveExternals)
    (inp : List VCurveInputSample) (rpos : List Vec2) (rwid : List ℝ) :
    List VCurveKnot :=
  let res := max (10 * vceps) (inp.getD 0 defIS).resolution
  let dk := dedupPass res rpos rwid
  let ks1 := setAngles ext.computeSupplementaryAngle dk.1
  let ks2 := mergePass ks1 dk.2
  let ks3 := setAngles ext.computeSupplementaryAngle ks2
  classifyCorners params.maxSmoothKnotAngle ks3

/-- The initial subdivision buffer of `VCurve::computeSamples_` (size 10):
`| | |A|B|C|D|E|F| | |`, the unused slots being value-initialized (`z`). -/
def initBuf {α : Type} (z a b c d e f : α) : ℕ → α := fun t =>
  if t = 2 then a else if t = 3 then b else if t = 4 then c
  else if t = 5 then d else if t = 6 then e else if t = 7 then f else z

/-- One subdivision step of `VCurve::computeSamples_`: from a buffer of size
`oldSize` produce one of size `2·(oldSize-4)-1`, with old value `k+2` spread
to even slot `2k` and the 4-point stencil `dyn` filling odd slots
`2k+3` for `k < p-3`; the other odd slots stay value-initialized. -/
def dlStep {α : Type} (dyn : α → α → α → α → α) (z : α) (oldSize : ℕ)
    (v : ℕ → α) : ℕ → α := fun t =>
  let ns := 2 * (oldSize - 4) - 1
  if t < ns then
    if t % 2 = 0 then v (t / 2 + 2)
    else if 3 ≤ t ∧ t + 4 ≤ ns then
      dyn (v ((t-3)/2 + 2)) (v ((t-1)/2 + 2)) (v ((t+1)/2 + 2)) (v ((t+3)/2 + 2))
    else z
  else z

/-- The three subdivision steps (`numSubdivisionSteps = 3`), buffer sizes
`10 → 11 → 13 → 17`. -/
def subdiv3 {α : Type} (dyn : α → α → α → α → α) (z a b c d e f : α) : ℕ → α :=
  dlStep dyn z 13 (dlStep dyn z 11 (dlStep dyn z 10 (initBuf z a b c d e f)))

/-- Build a sample the way the extraction loop of `computeSamples_` does:
only position, width and arclength are assigned (tangent/normal and `angle`
stay value-initialized until/unless later passes touch them). -/
def mkRawSample (p : Vec2) (w arc : ℝ) : VCurveSample :=
  ⟨p, w, ((0 : ℝ), (0 : ℝ)), ((0 : ℝ), (0 : ℝ)), arc, 0⟩

/-- The duplicate-removing extraction loop of `computeSamples_`: starting
from `[sC]`, for `k = 5` to `positions.size()-5 = 12` keep the point iff its
distance `ds` from the last kept sample exceeds `eps`, accumulating
arclength. -/
def dedupeLoop (posB : ℕ → Vec2) (widB : ℕ → ℝ) (sC : VCurveSample) :
    List VCurveSample :=
  (List.range' 5 8).foldl
    (fun samples k =>
      -- s0 = samples.back(); ds = distance from s0 to scaffold point k
      if glmLength (posB k - (samples.getLastD sC).position) > vceps then
        samples ++ [mkRawSample (posB k) (widB k)
          ((samples.getLastD sC).arclength +
            glmLength (posB k - (samples.getLastD sC).position))]
      else samples)
    [sC]

/-- The `samples.size() == 1` fallback of `computeSamples_`: force a second
sample from scaffold index `positions.size()-5 = 12` (note the source sets
its arclength to the bare distance from `samples[0]`). -/
def segFallback (posB : ℕ → Vec2) (widB : ℕ → ℝ)
    (samples : List VCurveSample) : List VCurveSample :=
  if samples.length = 1 then
    samples ++ [mkRawSample (posB 12) (widB 12)
      (glmLength (posB 12 - (samples.getD 0 defSample).position))]
  else samples

/-- Assign tangent and the 90°-rotated normal to a sample. -/
def withTangent (s : VCurveSample) (t : Vec2) : VCurveSample :=
  { s with tangent := t, normal := (-t.2, t.1) }

/-- Tangent computation guard of `computeSamples_`: `dp / ds` when
`ds > eps`, else the default `(1, 0)`. -/
def tangentOf (dp : Vec2) (ds : ℝ) : Vec2 :=
  if ds > vceps then (dp.1 / ds, dp.2 / ds) else ((1 : ℝ), (0 : ℝ))

/-- The tangent/normal pass of `computeSamples_` on the local sample list:
sample 0 uses the arclength difference to sample 1 when `C` is a corner and
otherwise the chord from the previously emitted sample to sample 2; interior
samples use the central chord; the last local sample is left untouched
(it is never emitted). -/
def assignTangents (cCorner : Bool) (prevLast : VCurveSample)
    (ls : List VCurveSample) : List VCurveSample :=
  (List.range ls.length).map fun k =>
    let s := ls.getD k defSample
    if k = 0 then
      if cCorner then
        let s1 := ls.getD 1 defSample
        withTangent s (tangentOf (s1.position - s.position)
          (s1.arclength - s.arclength))
      else
        let s2 := ls.getD 1 defSample
        let dp := s2.position - prevLast.position
        withTangent s (tangentOf dp (glmLength dp))
    else if k + 1 < ls.length then
      let dp := (ls.getD (k+1) defSample).position -
        (ls.getD (k-1) defSample).position
      withTangent s (tangentOf dp (glmLength dp))
    else s

/-- `std::atan2(y, x)`, modelled by the argument of the complex number
`x + y·i` (range `(-π, π]`). -/
def atan2 (y x : ℝ) : ℝ := Complex.arg ⟨x, y⟩

/-- The angle unwrap of `computeSamples_`: replace `a2` by the equivalent
angle closest to `a1`. -/
def unwrapNear (a1 a2 : ℝ) : ℝ :=
  if a2 > a1 + Real.pi then a2 - 2 * Real.pi
  else if a2 < a1 - Real.pi then a2 + 2 * Real.pi
  else a2

/-- The incoming direction angle `a1` of the corner-arc block: the direction
from the previously emitted sample `s0` to the corner's first generated
sample `s1`. -/
def fanA1 (s0 s1 : VCurveSample) : ℝ :=
  atan2 (s1.position.2 - s0.position.2) (s1.position.1 - s0.position.1)

/-- The outgoing direction angle `a2` (already unwrapped to be closest to
`a1`) of the corner-arc block: the direction from `s1` to `s2`. -/
def fanA2 (s0 s1 s2 : VCurveSample) : ℝ :=
  unwrapNear (fanA1 s0 s1)
    (atan2 (s2.position.2 - s1.position.2) (s2.position.1 - s1.position.1))

/-- The corner-arc block of `computeSamples_`: from the previously emitted
sample `s0` and the first two local samples `s1, s2`, compute the incoming
and outgoing angles, unwrap, and emit `na = ⌊|a2-a1| / maxSampleAngle⌋`
zero-length samples at `s1`'s position/width/arclength whose tangent angle
is linearly interpolated from `a1` towards `a2`. -/
def cornerFan (maxSampleAngle : ℝ) (s0 s1 s2 : VCurveSample) :
    List VCurveSample :=
  (List.range ⌊|fanA2 s0 s1 s2 - fanA1 s0 s1| / maxSampleAngle⌋₊).map fun (k : ℕ) =>
    -- u = k/na; a = a1 + u*(a2-a1)
    ⟨s1.position, s1.width,
      (Real.cos (fanA1 s0 s1 +
          ((k : ℝ) / ((⌊|fanA2 s0 s1 s2 - fanA1 s0 s1| / maxSampleAngle⌋₊ : ℕ) : ℝ)) *
          (fanA2 s0 s1 s2 - fanA1 s0 s1)),
        Real.sin (fanA1 s0 s1 +
          ((k : ℝ) / ((⌊|fanA2 s0 s1 s2 - fanA1 s0 s1| / maxSampleAngle⌋₊ : ℕ) : ℝ)) *
          (fanA2 s0 s1 s2 - fanA1 s0 s1))),
      (-Real.sin (fanA1 s0 s1 +
          ((k : ℝ) / ((⌊|fanA2 s0 s1 s2 - fanA1 s0 s1| / maxSampleAngle⌋₊ : ℕ) : ℝ)) *
          (fanA2 s0 s1 s2 - fanA1 s0 s1)),
        Real.cos (fanA1 s0 s1 +
          ((k : ℝ) / ((⌊|fanA2 s0 s1 s2 - fanA1 s0 s1| / maxSampleAngle⌋₊ : ℕ) : ℝ)) *
          (fanA2 s0 s1 s2 - fanA1 s0 s1))),
      s1.arclength, 0⟩

/-- The local (per-segment) sample list of `computeSamples_` for the segment
between `knots[i]` and `knots[i+1]`: pick the six control knots `A..F`
saturating at corners, subdivide positions and widths three times with
tension `w = 1/16`, extract and de-duplicate the samples between `C` and
`D`, apply the fallback, then assign tangents/normals. -/
def segLocals (ext : VCurveExternals) (ks : List VCurveKnot) (i : ℕ)
    (acc : List VCurveSample) : List VCurveSample :=
  let C := ks.getD i defKnot
  let D := ks.getD (i+1) defKnot
  let iB := if C.isCorner then i else i - 1
  let B := ks.getD iB defKnot
  let iA := if B.isCorner then iB else iB - 1
  let A := ks.getD iA defKnot
  let iE := if D.isCorner then i+1 else i+2
  let E := ks.getD iE defKnot
  let iF := if E.isCorner then iE else iE + 1
  let F := ks.getD iF defKnot
  let dynV := fun a b c d => ext.dynLevinV a b c d (1/16)
  let dynS := fun a b c d => ext.dynLevinS a b c d (1/16)
  let posB := subdiv3 dynV ((0 : ℝ), (0 : ℝ))
    A.position B.position C.position D.position E.position F.position
  let widB := subdiv3 dynS (0 : ℝ) A.width B.width C.width D.width E.width F.width
  let back := acc.getLastD defSample
  let sC : VCurveSample :=
    mkRawSample (posB 4) (widB 4)
      (if i = 0 then 0 else back.arclength + glmLength (posB 4 - back.position))
  assignTangents C.isCorner back (segFallback posB widB (dedupeLoop posB widB sC))

/-- One iteration of the segment loop of `computeSamples_`: append the
corner fan (when `knots[i]` is a corner and `i > 0`) and then the local
samples except the last one. -/
def emitSegment (params : VCurveParams) (ext : VCurveExternals)
    (ks : List VCurveKnot) (i : ℕ) (acc : List VCurveSample) :
    List VCurveSample :=
  let C := ks.getD i defKnot
  let locals := segLocals ext ks i acc
  let fan :=
    if C.isCorner ∧ 0 < i then
      cornerFan params.maxSampleAngle (acc.getLastD defSample)
        (locals.getD 0 defSample) (locals.getD 1 defSample)
    else []
  acc ++ fan ++ locals.take (locals.length - 1)

/-- `VCurve::computeSamples_`: run the segment loop for `i < n-1`, then
append the final sample at the last knot (arclength and tangent computed
against the previously emitted sample, or defaulted when there is none). -/
def computeSamples (params : VCurveParams) (ext : VCurveExternals)
    (ks : List VCurveKnot) : List VCurveSample :=
  let n := ks.length
  let body := (List.range (n - 1)).foldl
    (fun acc i => emitSegment params ext ks i acc) []
  let lastK := ks.getD (n-1) defKnot
  let at_ :=
    if body.isEmpty then ((0 : ℝ), ((1 : ℝ), (0 : ℝ)))
    else
      let s0 := body.getLastD defSample
      let dp := lastK.position - s0.position
      let ds := glmLength dp
      (s0.arclength + ds, tangentOf dp ds)
  body ++ [⟨lastK.position, lastK.width, at_.2, (-at_.2.2, at_.2.1), at_.1, 0⟩]

/-- The state owned by a `VCurve`: the six collections of `VCurve.cpp`. -/
structure VCurveState where
  inputSamples : List VCurveInputSample
  regFits : List (ℝ → Vec2)
  regPositions : List Vec2
  regWidths : List ℝ
  knots : List VCurveKnot
  samples : List VCurveSample

/-- `VCurve::clear` — exactly the five `.clear()` calls of the source.
Note that the source does *not* clear `knots_`. -/
def VCurveState.clear (st : VCurveState) : VCurveState :=
  { st with inputSamples := [], regFits := [], regPositions := [],
            regWidths := [], samples := [] }

/-- `VCurve::beginFit` — equivalent to `clear`. -/
def VCurveState.beginFit (st : VCurveState) : VCurveState := st.clear

/-- `VCurve::continueFit`: filter-append the input sample, then recompute
fits, smoothed positions/widths, knots and samples from the full history. -/
def continueFit (params : VCurveParams) (ext : VCurveExternals)
    (st : VCurveState) (s : VCurveInputSample) : VCurveState :=
  VCurveState.mk
    (appendInputSample st.inputSamples s)
    (computeRegFits ext (appendInputSample st.inputSamples s))
    (averageRegFits (appendInputSample st.inputSamples s)
      (computeRegFits ext (appendInputSample st.inputSamples s)))
    (computeRegWidths (appendInputSample st.inputSamples s))
    (computeKnots params ext (appendInputSample st.inputSamples s)
      (averageRegFits (appendInputSample st.inputSamples s)
        (computeRegFits ext (appendInputSample st.inputSamples s)))
      (computeRegWidths (appendInputSample st.inputSamples s)))
    (computeSamples params ext
      (computeKnots params ext (appendInputSample st.inputSamples s)
        (averageRegFits (appendInputSample st.inputSamples s)
          (computeRegFits ext (appendInputSample st.inputSamples s)))
        (computeRegWidths (appendInputSample st.inputSamples s))))

/-- `VCurve::numKnots`. -/
def VCurveState.numKnots (st : VCurveState) : ℕ := st.knots.length

/-- `VCurve::numSamples`. -/
def VCurveState.numSamples (st : VCurveState) : ℕ := st.samples.length

/-- `VCurve::knot(i)`, i.e. `knots_.at(i)`: `none` models the
`std::out_of_range` exception thrown exactly when `i ≥ knots_.size()`. -/
def VCurveState.knot (st : VCurveState) (i : ℕ) : Option VCurveKnot :=
  st.knots.get? i

/-- `VCurve::sample(i)`, i.e. `samples_.at(i)`: `none` models the
`std::out_of_range` exception thrown exactly when `i ≥ samples_.size()`. -/
def VCurveState.sample (st : VCurveState) (i : ℕ) : Option VCurveSample :=
  st.samples.get? i

/-- `VCurve::length`: `0` if there are no samples, else the arclength of the
last sample. -/
def VCurveState.length (st : VCurveState) : ℝ :=
  if st.samples.isEmpty then 0 else (st.samples.getLastD defSample).arclength

/-- A concrete parameter choice used to instantiate theorems on examples. -/
def p0 : VCurveParams := ⟨1, 1⟩

/-- A concrete choice of the abstract external collaborators, used to
instantiate theorems on examples. -/
def ext0 : VCurveExternals :=
  ⟨fun _ _ => ((0 : ℝ), (0 : ℝ)), fun _ _ _ => 0,
   fun a _ _ _ _ => a, fun a _ _ _ _ => a⟩

/-- The state of a freshly constructed `VCurve`. -/
def emptyState : VCurveState := ⟨[], [], [], [], [], []⟩

/-- A concrete input sample at the origin. -/
def s00 : VCurveInputSample := ⟨((0 : ℝ), (0 : ℝ)), 1, 1⟩

/-- Concrete knot `A` for merge-pass examples. -/
def kA : VCurveKnot := ⟨((0 : ℝ), (0 : ℝ)), 1, 0, false⟩

/-- Concrete knot `B` (supplementary angle `0`) for merge-pass examples. -/
def kB : VCurveKnot := ⟨((5 : ℝ), (0 : ℝ)), 1, 0, false⟩

/-- Concrete knot `C` (supplementary angle `1`) for merge-pass examples. -/
def kC : VCurveKnot := ⟨((6 : ℝ), (0 : ℝ)), 1, 1, false⟩

/-- Concrete knot `D` for merge-pass examples. -/
def kD : VCurveKnot := ⟨((11 : ℝ), (0 : ℝ)), 1, 0, false⟩

/-- A concrete input sample at `(5, 0)`. -/
def s10 : VCurveInputSample := ⟨((5 : ℝ), (0 : ℝ)), 1, 1⟩

/-- A concrete input sample at `(10, 0)`. -/
def s20 : VCurveInputSample := ⟨((10 : ℝ), (0 : ℝ)), 1, 1⟩

/-- A concrete corner knot for sampler examples. -/
def kCorner : VCurveKnot := ⟨((1 : ℝ), (0 : ℝ)), 1, 2, true⟩

/-- The arclength accumulation relation between two consecutive emitted
samples: the later sample's arclength is the earlier one's plus the
Euclidean distance between their positions. -/
def arcLinked (a b : VCurveSample) : Prop :=
  b.arclength = a.arclength + glmLength (b.position - a.position)

/-- Equally spaced collinear knot 0 for merge-pass spacing examples. -/
def kE0 : VCurveKnot := ⟨((0 : ℝ), (0 : ℝ)), 1, 0, false⟩

/-- Equally spaced collinear knot 1 for merge-pass spacing examples. -/
def kE1 : VCurveKnot := ⟨((1 : ℝ), (0 : ℝ)), 1, 0, false⟩

/-- Equally spaced collinear knot 2 for merge-pass spacing examples. -/
def kE2 : VCurveKnot := ⟨((2 : ℝ), (0 : ℝ)), 1, 0, false⟩

/-- Equally spaced collinear knot 3 for merge-pass spacing examples. -/
def kE3 : VCurveKnot := ⟨((3 : ℝ), (0 : ℝ)), 1, 0, false⟩

/-- A whole stroke session: `beginFit()` (= `clear`) followed by one
`continueFit` per raw input sample. -/
def runStroke (params : VCurveParams) (ext : VCurveExternals)
    (st0 : VCurveState) (raw : List VCurveInputSample) : VCurveState :=
  raw.foldl (continueFit params ext) st0.clear

/-!  ## Basic facts about the embedded vector norm -/

theorem glmLength_nonneg (v : Vec2) : 0 ≤ glmLength v := Real.sqrt_nonneg _

theorem glmLength_zero : glmLength ((0 : ℝ), (0 : ℝ)) = 0 := by
  simp [glmLength]

theorem glmLength_sub_self (p : Vec2) : glmLength (p - p) = 0 := by
  simp [glmLength]

theorem glmLength_one_zero : glmLength ((1 : ℝ), (0 : ℝ)) = 1 := by
  simp [glmLength]

/-!  ## C8 — input filtering (`appendInputSample_`) -/

/-- C8: `appendSample` appends the given sample iff the history is empty or
the distance from the last accepted sample to the new one exceeds
`0.1 × sample.resolution`; otherwise the history is unchanged; the result is
never empty. -/
theorem appendInputSample_spec (hist : List VCurveInputSample)
    (s : VCurveInputSample) :
    appendInputSample hist s ≠ [] ∧
    (hist = [] → appendInputSample hist s = [s]) ∧
    (hist ≠ [] →
      (glmLength (s.position - (hist.getLastD defIS).position) >
          0.1 * s.resolution →
        appendInputSample hist s = hist ++ [s]) ∧
      (¬ glmLength (s.position - (hist.getLastD defIS).position) >
          0.1 * s.resolution →
        appendInputSample hist s = hist)) := by
  unfold appendInputSample
  rcases hist with _ | ⟨a, l⟩
  · simp
  · simp only [List.isEmpty_cons, if_false, Bool.false_eq_true]
    constructor
    · split_ifs with h
      · simp
      · simp
    constructor
    · intro h; exact absurd h (by simp)
    · intro _
      constructor
      · intro h; rw [if_pos h]
      · intro h; rw [if_neg h]

/-- C8 witness: a concrete far-enough sample is appended. -/
theorem appendInputSample_spec_witness :
    ([⟨((0 : ℝ), (0 : ℝ)), 1, 1⟩] : List VCurveInputSample) ≠ [] ∧
    appendInputSample [⟨((0 : ℝ), (0 : ℝ)), 1, 1⟩] ⟨((1 : ℝ), (0 : ℝ)), 1, 1⟩ =
      [⟨((0 : ℝ), (0 : ℝ)), 1, 1⟩, ⟨((1 : ℝ), (0 : ℝ)), 1, 1⟩] := by
  refine ⟨by simp, ?_⟩
  have h := (appendInputSample_spec [⟨((0 : ℝ), (0 : ℝ)), 1, 1⟩]
    ⟨((1 : ℝ), (0 : ℝ)), 1, 1⟩).2.2 (by simp)
  have hgt : glmLength ((((1 : ℝ), (0 : ℝ)) : Vec2) -
      (((0 : ℝ), (0 : ℝ)) : Vec2)) > 0.1 * 1 := by
    have : ((((1 : ℝ), (0 : ℝ)) : Vec2) - (((0 : ℝ), (0 : ℝ)) : Vec2)) =
        (((1 : ℝ), (0 : ℝ)) : Vec2) := by
      simp [Prod.ext_iff]
    rw [this, glmLength_one_zero]; norm_num
  exact h.1 hgt

/-!  ## C9 — indexed access (`knot(i)` / `sample(i)` via `.at`) -/

/-- C9: `knot(i)` and `sample(i)` fail (model: return `none`) iff
`i ≥ knotCount()` (resp. `i ≥ sampleCount()`), and otherwise return exactly
the `i`-th element of the corresponding sequence — never a clamped index. -/
theorem index_access_spec (st : VCurveState) (i : ℕ) :
    (st.knot i = none ↔ st.numKnots ≤ i) ∧
    (i < st.numKnots → st.knot i = some (st.knots.getD i defKnot)) ∧
    (st.sample i = none ↔ st.numSamples ≤ i) ∧
    (i < st.numSamples → st.sample i = some (st.samples.getD i defSample)) := by
  refine ⟨?_, ?_, ?_, ?_⟩
  · simp [VCurveState.knot, VCurveState.numKnots, List.get?_eq_none]
  · intro h
    simp only [VCurveState.knot, VCurveState.numKnots] at h ⊢
    rw [List.get?_eq_getElem?, List.getElem?_eq_getElem h,
      List.getD_eq_getElem st.knots defKnot h]
  · simp [VCurveState.sample, VCurveState.numSamples, List.get?_eq_none]
  · intro h
    simp only [VCurveState.sample, VCurveState.numSamples] at h ⊢
    rw [List.get?_eq_getElem?, List.getElem?_eq_getElem h,
      List.getD_eq_getElem st.samples defSample h]

/-- C9 witness: in-range and out-of-range access on a one-knot, one-sample
state. -/
theorem index_access_spec_witness :
    (0 < (VCurveState.mk [] [] [] [] [defKnot] [defSample]).numKnots ∧
      (VCurveState.mk [] [] [] [] [defKnot] [defSample]).knot 0 =
        some defKnot) ∧
    ((VCurveState.mk [] [] [] [] [defKnot] [defSample]).knot 1 = none ↔
      (VCurveState.mk [] [] [] [] [defKnot] [defSample]).numKnots ≤ 1) := by
  constructor
  · refine ⟨by simp [VCurveState.numKnots], ?_⟩
    have h := (index_access_spec (VCurveState.mk [] [] [] [] [defKnot]
      [defSample]) 0).2.1 (by simp [VCurveState.numKnots])
    simpa using h
  · exact (index_access_spec (VCurveState.mk [] [] [] [] [defKnot]
      [defSample]) 1).1

/-!  ## The pipeline after a single accepted input sample -/

/-- Helper: the full state after `beginFit` (= `clear`) followed by one
`continueFit` call, computed in closed form. -/
theorem run_single (params : VCurveParams) (ext : VCurveExternals)
    (st0 : VCurveState) (s : VCurveInputSample) :
    continueFit params ext st0.clear s =
      ⟨[s], computeRegFits ext [s], [s.position], [s.width],
        [⟨s.position, s.width, 0, true⟩],
        [⟨s.position, s.width, ((1 : ℝ), (0 : ℝ)), ((0 : ℝ), (1 : ℝ)), 0, 0⟩]⟩ := by
  have h1 : appendInputSample (VCurveState.clear st0).inputSamples s = [s] := by
    simp [VCurveState.clear, appendInputSample]
  have hrpos : averageRegFits [s] (computeRegFits ext [s]) = [s.position] := by
    simp [averageRegFits, show List.range 1 = [0] from rfl]
  have hrwid : computeRegWidths [s] = [s.width] := by
    simp [computeRegWidths, show List.range 1 = [0] from rfl]
  have hks : computeKnots params ext [s] [s.position] [s.width] =
      [⟨s.position, s.width, 0, true⟩] := by
    have hded : dedupPass (max (10 * vceps) ([s].getD 0 defIS).resolution)
        [s.position] [s.width] =
        ([⟨s.position, s.width, 0, false⟩], []) := by
      simp [dedupPass]
    have hsa : setAngles ext.computeSupplementaryAngle
        [(⟨s.position, s.width, 0, false⟩ : VCurveKnot)] =
        [⟨s.position, s.width, 0, false⟩] := by
      simp [setAngles, show List.range 1 = [0] from rfl]
    have hmp : mergePass [(⟨s.position, s.width, 0, false⟩ : VCurveKnot)] [] =
        [⟨s.position, s.width, 0, false⟩] := by
      rw [mergePass, if_neg (by simp), mergeAux]
      simp
    simp only [computeKnots, hded, hsa, hmp, classifyCorners, show List.range 1 = [0] from rfl,
      List.length_singleton, List.map_cons, List.map_nil]
    simp
  have hsamp : computeSamples params ext
      [(⟨s.position, s.width, 0, true⟩ : VCurveKnot)] =
      [⟨s.position, s.width, ((1 : ℝ), (0 : ℝ)), ((0 : ℝ), (1 : ℝ)), 0, 0⟩] := by
    simp [computeSamples, List.range_zero]
  simp only [continueFit, h1, hrpos, hrwid, hks, hsamp]

/-- C1 (code bug): `reset()`/`beginStroke()` (the source's `clear()`) empties
the input history, the fits, the smoothed positions and widths, and the
samples, and a second `clear()` is a no-op — but it does **not** clear
`knots_`: from the reachable state with one accepted sample, `knotCount()`
is still `1` after `clear()`, contradicting the claimed `knotCount() = 0`. -/
theorem clear_keeps_knots_bug :
    (continueFit p0 ext0 emptyState.clear s00).numKnots = 1 ∧
    (continueFit p0 ext0 emptyState.clear s00).clear.numKnots = 1 ∧
    ¬ (continueFit p0 ext0 emptyState.clear s00).clear.numKnots = 0 ∧
    (continueFit p0 ext0 emptyState.clear s00).clear.inputSamples = [] ∧
    (continueFit p0 ext0 emptyState.clear s00).clear.regFits = [] ∧
    (continueFit p0 ext0 emptyState.clear s00).clear.regPositions = [] ∧
    (continueFit p0 ext0 emptyState.clear s00).clear.regWidths = [] ∧
    (continueFit p0 ext0 emptyState.clear s00).clear.samples = [] ∧
    (continueFit p0 ext0 emptyState.clear s00).clear.clear =
      (continueFit p0 ext0 emptyState.clear s00).clear := by
  rw [run_single p0 ext0 emptyState s00]
  simp [VCurveState.clear, VCurveState.numKnots]

/-- C10: after `beginStroke()` and exactly one `appendSample`, there is
exactly one knot (a corner at the input sample's position and width) and
exactly one output sample with that position and width, arclength `0`,
tangent `(1,0)` and normal `(0,1)`; consequently `length()` is `0`. -/
theorem single_sample_pipeline (params : VCurveParams) (ext : VCurveExternals)
    (st0 : VCurveState) (s : VCurveInputSample) :
    (continueFit params ext st0.clear s).knots =
      [⟨s.position, s.width, 0, true⟩] ∧
    (continueFit params ext st0.clear s).samples =
      [⟨s.position, s.width, ((1 : ℝ), (0 : ℝ)), ((0 : ℝ), (1 : ℝ)), 0, 0⟩] ∧
    (continueFit params ext st0.clear s).numKnots = 1 ∧
    (continueFit params ext st0.clear s).numSamples = 1 ∧
    (continueFit params ext st0.clear s).length = 0 := by
  rw [run_single params ext st0 s]
  simp [VCurveState.numKnots, VCurveState.numSamples, VCurveState.length]

/-!  ## C2 — which of the two merged knots is kept -/

/-- C2 counterexample: on the 4-knot window `kA,kB,kC,kD` with pre-merge
distances `5,1,5`, the merge criterion holds and `kB` has the *smaller*
angle, yet the merge pass keeps `kC` (the larger-angle knot), not `kB` as
the claim states. -/
theorem merge_keeps_larger_angle_cex :
    (4 * ([(5 : ℝ), 1, 5].getD 1 0) < [(5 : ℝ), 1, 5].getD 0 0 ∧
      4 * ([(5 : ℝ), 1, 5].getD 1 0) < [(5 : ℝ), 1, 5].getD 2 0) ∧
    kB.angle < kC.angle ∧
    mergePass [kA, kB, kC, kD] [(5 : ℝ), 1, 5] = [kA, kC, kD] ∧
    (mergePass [kA, kB, kC, kD] [(5 : ℝ), 1, 5]).getD 1 defKnot ≠ kB := by
  have hcrit : (4 * ([(5 : ℝ), 1, 5].getD 1 0) < [(5 : ℝ), 1, 5].getD 0 0 ∧
      4 * ([(5 : ℝ), 1, 5].getD 1 0) < [(5 : ℝ), 1, 5].getD 2 0) := by
    norm_num [List.getD]
  have hangle : kB.angle < kC.angle := by norm_num [kB, kC]
  have hmp : mergePass [kA, kB, kC, kD] [(5 : ℝ), 1, 5] = [kA, kC, kD] := by
    rw [mergePass, if_neg (by simp)]
    rw [mergeAux, dif_pos (by norm_num), if_pos (by norm_num [List.getD])]
    rw [mergeAux, dif_neg (by norm_num)]
    have : (List.getD [kA, kB, kC, kD] 1 defKnot).angle <
        (List.getD [kA, kB, kC, kD] 2 defKnot).angle := by
      norm_num [List.getD, kB, kC]
    rw [if_pos this]
    simp [List.range', List.getD]
  refine ⟨hcrit, hangle, hmp, ?_⟩
  rw [hmp]
  simp only [List.getD, List.getElem?_cons_succ, List.getElem?_cons_zero,
    Option.getD_some]
  intro h
  have := congrArg VCurveKnot.angle h
  norm_num [kB, kC] at this

/-- C2 amended: whenever the merge criterion `4·BC < AB ∧ 4·BC < CD` holds
for the window starting at read cursor `i1`, knots `B` and `C` are merged
into a single emitted knot, and the one with the **larger** supplementary
angle is kept (`B` on ties) — the smaller-angle knot is the one deleted. -/
theorem merge_keeps_larger_angle (ks : List VCurveKnot) (d : List ℝ)
    (m i1 : ℕ) (hm : i1 + 3 < m)
    (h1 : 4 * d.getD (i1+1) 0 < d.getD i1 0)
    (h2 : 4 * d.getD (i1+1) 0 < d.getD (i1+2) 0) :
    mergeAux ks d m i1 =
      (if (ks.getD (i1+1) defKnot).angle < (ks.getD (i1+2) defKnot).angle
        then ks.getD (i1+2) defKnot else ks.getD (i1+1) defKnot) ::
        mergeAux ks d m (i1+2) ∧
    ((ks.getD (i1+1) defKnot).angle < (ks.getD (i1+2) defKnot).angle →
      mergeAux ks d m i1 = ks.getD (i1+2) defKnot :: mergeAux ks d m (i1+2)) ∧
    ((ks.getD (i1+2) defKnot).angle ≤ (ks.getD (i1+1) defKnot).angle →
      mergeAux ks d m i1 = ks.getD (i1+1) defKnot :: mergeAux ks d m (i1+2)) := by
  have hu : mergeAux ks d m i1 =
      (if (ks.getD (i1+1) defKnot).angle < (ks.getD (i1+2) defKnot).angle
        then ks.getD (i1+2) defKnot else ks.getD (i1+1) defKnot) ::
        mergeAux ks d m (i1+2) := by
    rw [mergeAux, dif_pos hm, if_pos ⟨h1, h2⟩]
  refine ⟨hu, fun h => ?_, fun h => ?_⟩
  · rw [hu, if_pos h]
  · rw [hu, if_neg (not_lt.mpr h)]

/-- C2 witness: the amended merge behavior at a concrete window. -/
theorem merge_keeps_larger_angle_witness :
    ((0 : ℕ) + 3 < 4 ∧
      4 * ([(9 : ℝ), 2, 9].getD (0+1) 0) < [(9 : ℝ), 2, 9].getD 0 0 ∧
      4 * ([(9 : ℝ), 2, 9].getD (0+1) 0) < [(9 : ℝ), 2, 9].getD (0+2) 0) ∧
    mergeAux [kA, kB, kC, kD] [(9 : ℝ), 2, 9] 4 0 =
      (if (List.getD [kA, kB, kC, kD] (0+1) defKnot).angle <
          (List.getD [kA, kB, kC, kD] (0+2) defKnot).angle
        then List.getD [kA, kB, kC, kD] (0+2) defKnot
        else List.getD [kA, kB, kC, kD] (0+1) defKnot) ::
        mergeAux [kA, kB, kC, kD] [(9 : ℝ), 2, 9] 4 (0+2) := by
  have hm : (0 : ℕ) + 3 < 4 := by norm_num
  have h1 : 4 * ([(9 : ℝ), 2, 9].getD (0+1) 0) < [(9 : ℝ), 2, 9].getD 0 0 := by
    norm_num [List.getD]
  have h2 : 4 * ([(9 : ℝ), 2, 9].getD (0+1) 0) <
      [(9 : ℝ), 2, 9].getD (0+2) 0 := by
    norm_num [List.getD]
  exact ⟨⟨hm, h1, h2⟩,
    (merge_keeps_larger_angle [kA, kB, kC, kD] [(9 : ℝ), 2, 9] 4 0 hm h1 h2).1⟩

/-!  ## C6 — the blending weights never sum to zero -/

theorem w_nonneg (u : ℝ) : 0 ≤ w_ u := by
  have : w_ u = (u * (1 - u)) ^ 2 := by unfold w_; ring
  rw [this]; positivity

theorem w_pos (u : ℝ) (h0 : 0 < u) (h1 : u < 1) : 0 < w_ u := by
  have : w_ u = (u * (1 - u)) ^ 2 := by unfold w_; ring
  rw [this]
  have : u * (1 - u) > 0 := mul_pos h0 (by linarith)
  positivity

/-- Helper: the number of fits produced by `computeRegFits`. -/
theorem computeRegFits_length (ext : VCurveExternals)
    (inp : List VCurveInputSample) :
    (computeRegFits ext inp).length = inp.length - min 5 inp.length + 1 := by
  simp [computeRegFits]

/-- Helper: the weight accumulator of `blendAt` is the sum of the kernel
weights of the covering fits. -/
theorem blendAt_sumW (regFits : List (ℝ → Vec2)) (numFits numSamplesPerFit i : ℕ) :
    (blendAt regFits numFits numSamplesPerFit i).2 =
      ((List.range' 1 (numSamplesPerFit - 2)).map fun j =>
        if j ≤ i ∧ i - j < numFits then
          w_ ((j : ℝ) / ((numSamplesPerFit - 1 : ℕ) : ℝ)) else 0).sum := by
  have key : ∀ (l : List ℕ) (acc : Vec2 × ℝ),
      (l.foldl
        (fun acc j =>
          if j ≤ i ∧ i - j < numFits then
            (acc.1 + w_ ((j : ℝ) / ((numSamplesPerFit - 1 : ℕ) : ℝ)) •
                regFits.getD (i - j) (fun _ => ((0 : ℝ), (0 : ℝ)))
                  ((j : ℝ) / ((numSamplesPerFit - 1 : ℕ) : ℝ)),
              acc.2 + w_ ((j : ℝ) / ((numSamplesPerFit - 1 : ℕ) : ℝ)))
          else acc) acc).2 =
      acc.2 + (l.map fun j =>
        if j ≤ i ∧ i - j < numFits then
          w_ ((j : ℝ) / ((numSamplesPerFit - 1 : ℕ) : ℝ)) else 0).sum := by
    intro l
    induction l with
    | nil => intro acc; simp
    | cons a l ih =>
      intro acc
      rw [List.foldl_cons, ih, List.map_cons, List.sum_cons]
      split_ifs with h
      · simp; ring
      · simp
  rw [blendAt, key]
  simp

/-- C6: for every interior input sample index `i` (with `1 ≤ i ≤ n-2`), at
least one fit covers `i` at an interior window offset with strictly
positive kernel weight, and therefore the weight sum of the blend at `i` is
strictly positive (the zero-total-weight division is unreachable). -/
theorem blend_weight_pos (ext : VCurveExternals) (inp : List VCurveInputSample)
    (i : ℕ) (h1 : 1 ≤ i) (h2 : i + 1 < inp.length) :
    (∃ j, 1 ≤ j ∧ j + 1 < min 5 inp.length ∧ j ≤ i ∧
      i - j < (computeRegFits ext inp).length ∧
      0 < w_ ((j : ℝ) / ((min 5 inp.length - 1 : ℕ) : ℝ))) ∧
    0 < (blendAt (computeRegFits ext inp) (computeRegFits ext inp).length
      (inp.length - (computeRegFits ext inp).length + 1) i).2 := by
  have hlen := computeRegFits_length ext inp
  set n := inp.length with hn
  have hn3 : 3 ≤ n := by omega
  have hm5 : min 5 n ≤ n := min_le_right _ _
  have hm3 : 3 ≤ min 5 n := le_min (by norm_num) hn3
  set m := min 5 n with hmdef
  have hk : n - (n - m + 1) + 1 = m := by omega
  have hnf : (computeRegFits ext inp).length = n - m + 1 := hlen
  -- the covering interior offset
  set j0 := min i (m - 2) with hj0
  have hj1 : 1 ≤ j0 := le_min h1 (by omega)
  have hj2 : j0 + 1 < m := by
    have : j0 ≤ m - 2 := min_le_right _ _
    omega
  have hj3 : j0 ≤ i := min_le_left _ _
  have hj4 : i - j0 < n - m + 1 := by
    rcases le_or_lt i (m - 2) with hc | hc
    · have : j0 = i := by rw [hj0]; exact min_eq_left hc
      omega
    · have : j0 = m - 2 := by rw [hj0]; exact min_eq_right (by omega)
      omega
  have hu0 : (0 : ℝ) < (j0 : ℝ) / ((m - 1 : ℕ) : ℝ) := by
    apply div_pos
    · exact_mod_cast hj1
    · exact_mod_cast (by omega : 0 < m - 1)
  have hu1 : (j0 : ℝ) / ((m - 1 : ℕ) : ℝ) < 1 := by
    rw [div_lt_one (by exact_mod_cast (by omega : 0 < m - 1))]
    exact_mod_cast (by omega : j0 < m - 1)
  have hwpos := w_pos _ hu0 hu1
  refine ⟨⟨j0, hj1, hj2, hj3, by rw [hnf]; exact hj4, hwpos⟩, ?_⟩
  rw [blendAt_sumW, hnf, hk]
  have hmem : j0 ∈ List.range' 1 (m - 2) := by
    rw [List.mem_range'_1]
    omega
  have hmem2 : (if j0 ≤ i ∧ i - j0 < n - m + 1 then
      w_ ((j0 : ℝ) / ((m - 1 : ℕ) : ℝ)) else 0) ∈
      (List.range' 1 (m - 2)).map fun j =>
        if j ≤ i ∧ i - j < n - m + 1 then
          w_ ((j : ℝ) / ((m - 1 : ℕ) : ℝ)) else 0 :=
    List.mem_map_of_mem _ hmem
  rw [if_pos ⟨hj3, hj4⟩] at hmem2
  have hnonneg : ∀ x ∈ (List.range' 1 (m - 2)).map fun j =>
      if j ≤ i ∧ i - j < n - m + 1 then
        w_ ((j : ℝ) / ((m - 1 : ℕ) : ℝ)) else 0, 0 ≤ x := by
    intro x hx
    rcases List.mem_map.mp hx with ⟨j, _, rfl⟩
    split_ifs
    · exact w_nonneg _
    · exact le_refl 0
  calc (0 : ℝ) < w_ ((j0 : ℝ) / ((m - 1 : ℕ) : ℝ)) := hwpos
    _ ≤ _ := List.single_le_sum hnonneg _ hmem2

/-- C6 witness: the interior sample of a concrete three-sample history has
positive blend weight sum. -/
theorem blend_weight_pos_witness :
    (1 ≤ 1 ∧ 1 + 1 < ([s00, s10, s20] : List VCurveInputSample).length) ∧
    0 < (blendAt (computeRegFits ext0 [s00, s10, s20])
      (computeRegFits ext0 [s00, s10, s20]).length
      (([s00, s10, s20] : List VCurveInputSample).length -
        (computeRegFits ext0 [s00, s10, s20]).length + 1) 1).2 := by
  have ha : (1 : ℕ) ≤ 1 := le_refl 1
  have hb : 1 + 1 < ([s00, s10, s20] : List VCurveInputSample).length := by simp
  exact ⟨⟨ha, hb⟩, (blend_weight_pos ext0 [s00, s10, s20] 1 ha hb).2⟩

/-!  ## C7 — the corner rounding fan -/

/-- Helper: `atan2` values lie in `(-π, π]`. -/
theorem atan2_mem (y x : ℝ) : -Real.pi < atan2 y x ∧ atan2 y x ≤ Real.pi :=
  ⟨Complex.neg_pi_lt_arg _, Complex.arg_le_pi _⟩

/-- Helper: unwrapping brings the two angles within `π` of each other. -/
theorem unwrapNear_close (a1 a2 : ℝ) (h1 : -Real.pi < a1) (h2 : a1 ≤ Real.pi)
    (h3 : -Real.pi < a2) (h4 : a2 ≤ Real.pi) :
    |unwrapNear a1 a2 - a1| ≤ Real.pi := by
  have hpi := Real.pi_pos
  unfold unwrapNear
  split_ifs with hb hc
  · rw [abs_le]; constructor <;> linarith
  · rw [abs_le]; constructor <;> linarith
  · rw [abs_le]; constructor <;> linarith

/-- Helper: the angle gap used by the fan is at most `π`. -/
theorem fan_angle_gap_le_pi (s0 s1 s2 : VCurveSample) :
    |fanA2 s0 s1 s2 - fanA1 s0 s1| ≤ Real.pi := by
  have h1 := atan2_mem (s1.position.2 - s0.position.2)
    (s1.position.1 - s0.position.1)
  have h2 := atan2_mem (s2.position.2 - s1.position.2)
    (s2.position.1 - s1.position.1)
  exact unwrapNear_close _ _ h1.1 h1.2 h2.1 h2.2

/-- C7: when segment `i`'s starting knot `C` is a corner and `i > 0`, the
sampler emits, right after the previously accumulated samples and before
`C`'s regular samples, exactly `⌊|a2-a1| / maxSampleAngle⌋` fan samples;
each of them carries exactly the position, width and arclength of `C`'s
first generated sample and a unit tangent/normal at an angle linearly
interpolated between the unwrapped directions `a1` and `a2` (which differ by
at most `π`); a gap of `π/2` with `maxSampleAngle = π/8` gives at least
`4` fan samples. -/
theorem corner_fan_spec (params : VCurveParams) (ext : VCurveExternals)
    (ks : List VCurveKnot) (i : ℕ) (acc : List VCurveSample)
    (hC : (ks.getD i defKnot).isCorner = true) (hi : 0 < i) :
    emitSegment params ext ks i acc =
      acc ++
        cornerFan params.maxSampleAngle (acc.getLastD defSample)
          ((segLocals ext ks i acc).getD 0 defSample)
          ((segLocals ext ks i acc).getD 1 defSample) ++
        (segLocals ext ks i acc).take ((segLocals ext ks i acc).length - 1) ∧
    (∀ s0 s1 s2 : VCurveSample,
      (cornerFan params.maxSampleAngle s0 s1 s2).length =
        ⌊|fanA2 s0 s1 s2 - fanA1 s0 s1| / params.maxSampleAngle⌋₊) ∧
    (∀ s0 s1 s2 : VCurveSample, |fanA2 s0 s1 s2 - fanA1 s0 s1| ≤ Real.pi) ∧
    (∀ s0 s1 s2 : VCurveSample,
      ∀ k < ⌊|fanA2 s0 s1 s2 - fanA1 s0 s1| / params.maxSampleAngle⌋₊,
        (cornerFan params.maxSampleAngle s0 s1 s2).getD k defSample =
          ⟨s1.position, s1.width,
            (Real.cos (fanA1 s0 s1 +
                ((k : ℝ) / ((⌊|fanA2 s0 s1 s2 - fanA1 s0 s1| /
                    params.maxSampleAngle⌋₊ : ℕ) : ℝ)) *
                (fanA2 s0 s1 s2 - fanA1 s0 s1)),
              Real.sin (fanA1 s0 s1 +
                ((k : ℝ) / ((⌊|fanA2 s0 s1 s2 - fanA1 s0 s1| /
                    params.maxSampleAngle⌋₊ : ℕ) : ℝ)) *
                (fanA2 s0 s1 s2 - fanA1 s0 s1))),
            (-Real.sin (fanA1 s0 s1 +
                ((k : ℝ) / ((⌊|fanA2 s0 s1 s2 - fanA1 s0 s1| /
                    params.maxSampleAngle⌋₊ : ℕ) : ℝ)) *
                (fanA2 s0 s1 s2 - fanA1 s0 s1)),
              Real.cos (fanA1 s0 s1 +
                ((k : ℝ) / ((⌊|fanA2 s0 s1 s2 - fanA1 s0 s1| /
                    params.maxSampleAngle⌋₊ : ℕ) : ℝ)) *
                (fanA2 s0 s1 s2 - fanA1 s0 s1))),
            s1.arclength, 0⟩) ∧
    (params.maxSampleAngle = Real.pi / 8 →
      ∀ s0 s1 s2 : VCurveSample,
        |fanA2 s0 s1 s2 - fanA1 s0 s1| = Real.pi / 2 →
          4 ≤ (cornerFan params.maxSampleAngle s0 s1 s2).length) := by
  refine ⟨?_, ?_, ?_, ?_, ?_⟩
  · simp only [emitSegment]
    rw [if_pos ⟨hC, hi⟩]
  · intro s0 s1 s2
    simp [cornerFan]
  · intro s0 s1 s2
    exact fan_angle_gap_le_pi s0 s1 s2
  · intro s0 s1 s2 k hk
    have hk' : k < (cornerFan params.maxSampleAngle s0 s1 s2).length := by
      simpa [cornerFan] using hk
    rw [List.getD_eq_getElem _ _ hk']
    simp [cornerFan]
  · intro hmsa s0 s1 s2 hgap
    have hlen : (cornerFan params.maxSampleAngle s0 s1 s2).length =
        ⌊|fanA2 s0 s1 s2 - fanA1 s0 s1| / params.maxSampleAngle⌋₊ := by
      simp [cornerFan]
    rw [hlen, hmsa, hgap]
    have hq : Real.pi / 2 / (Real.pi / 8) = (4 : ℝ) := by
      rw [div_eq_iff (by positivity : Real.pi / 8 ≠ 0)]
      ring
    rw [hq]
    norm_num

/-- C7 witness: a corner interior knot triggers the fan insertion. -/
theorem corner_fan_spec_witness :
    ((([kA, kCorner, kD] : List VCurveKnot).getD 1 defKnot).isCorner = true ∧
      (0 : ℕ) < 1) ∧
    emitSegment p0 ext0 [kA, kCorner, kD] 1 [defSample] =
      [defSample] ++
        cornerFan p0.maxSampleAngle
          (([defSample] : List VCurveSample).getLastD defSample)
          ((segLocals ext0 [kA, kCorner, kD] 1 [defSample]).getD 0 defSample)
          ((segLocals ext0 [kA, kCorner, kD] 1 [defSample]).getD 1 defSample) ++
        (segLocals ext0 [kA, kCorner, kD] 1 [defSample]).take
          ((segLocals ext0 [kA, kCorner, kD] 1 [defSample]).length - 1) := by
  have hC : (([kA, kCorner, kD] : List VCurveKnot).getD 1 defKnot).isCorner =
      true := rfl
  have hi : (0 : ℕ) < 1 := by norm_num
  exact ⟨⟨hC, hi⟩, (corner_fan_spec p0 ext0 [kA, kCorner, kD] 1 [defSample] hC hi).1⟩

/-!  ## Triangle inequality toolbox for `glmLength` -/

theorem glmLength_eq_abs (v : Vec2) : glmLength v = Complex.abs ⟨v.1, v.2⟩ := by
  rw [Complex.abs_apply, Complex.normSq_mk, glmLength]
  congr 1
  ring

theorem glmLength_add_le (x y : Vec2) :
    glmLength (x + y) ≤ glmLength x + glmLength y := by
  rw [glmLength_eq_abs, glmLength_eq_abs, glmLength_eq_abs]
  have h : ((⟨(x + y).1, (x + y).2⟩ : ℂ)) =
      (⟨x.1, x.2⟩ : ℂ) + (⟨y.1, y.2⟩ : ℂ) := by
    simp [Complex.ext_iff]
  rw [h]
  exact Complex.abs.add_le _ _

/-- Triangle inequality in the orientation used for consecutive knots. -/
theorem glmLength_tri (p0 p1 p2 : Vec2) :
    glmLength (p2 - p0) ≤ glmLength (p1 - p0) + glmLength (p2 - p1) := by
  have h : p2 - p0 = (p1 - p0) + (p2 - p1) := by abel
  rw [h]
  exact glmLength_add_le _ _

theorem glmLength_sub_comm (a b : Vec2) : glmLength (a - b) = glmLength (b - a) := by
  unfold glmLength
  congr 1
  have h1 : (a - b).1 = -((b - a).1) := by simp
  have h2 : (a - b).2 = -((b - a).2) := by simp
  rw [h1, h2]
  ring

/-!  ## Merge-pass spacing machinery -/

/-- Helper: a chain of knots read off consecutive indices, with a given head
element, is spacing-chained whenever every consecutive index pair is. -/
theorem chain'_cons_range'_map {α : Type} (R : α → α → Prop) (f : ℕ → α)
    (x : α) : ∀ (len start : ℕ),
    (0 < len → R x (f start)) →
    (∀ t, start ≤ t → t + 1 < start + len → R (f t) (f (t + 1))) →
    List.Chain' R (x :: (List.range' start len).map f) := by
  intro len
  induction len generalizing x with
  | zero => intro start _ _; simp
  | succ n ih =>
    intro start h0 hs
    rw [List.range'_succ, List.map_cons, List.chain'_cons]
    refine ⟨h0 (by omega), ?_⟩
    exact ih (f start) (start + 1)
      (fun hn => hs start (le_refl _) (by omega))
      (fun t ht1 ht2 => hs t (by omega) (by omega))

/-- Helper: the link from the previously emitted knot (original index `q`) to
the next emitted knot (original index `i1+1`), under the merge-loop
invariant that either `q = i1`, or `q + 1 = i1` and the knot at `q+1` was
deleted by a keep-`B` merge whose criterion included `4·d[q] < d[q+1]`. -/
theorem merge_link (ks : List VCurveKnot) (d : List ℝ) (m : ℕ) (δ : ℝ)
    (hd : ∀ t, t + 1 < m →
      d.getD t 0 = glmLength ((ks.getD (t+1) defKnot).position -
        (ks.getD t defKnot).position) ∧ δ < d.getD t 0)
    (i1 q : ℕ)
    (hq : q = i1 ∨ (q + 1 = i1 ∧ 4 * d.getD q 0 < d.getD (q+1) 0))
    (hlt : i1 + 1 < m) :
    δ < glmLength ((ks.getD (i1+1) defKnot).position -
      (ks.getD q defKnot).position) := by
  rcases hq with rfl | ⟨hq1, hpast⟩
  · have h := hd q hlt
    rw [← h.1]
    exact h.2
  · subst hq1
    simp only [(by omega : q + 1 + 1 = q + 2)] at hlt ⊢
    have hda := hd q (by omega)
    have hdb := hd (q+1) (by omega)
    simp only [(by omega : q + 1 + 1 = q + 2)] at hdb
    -- D(q+1) ≤ D(q) + |K(q+2) - K(q)|
    have htri := glmLength_tri (ks.getD (q+1) defKnot).position
      (ks.getD q defKnot).position (ks.getD (q+2) defKnot).position
    rw [glmLength_sub_comm ((ks.getD q defKnot).position)
      ((ks.getD (q+1) defKnot).position), ← hda.1] at htri
    rw [show glmLength ((ks.getD (q+2) defKnot).position -
        (ks.getD (q+1) defKnot).position) = d.getD (q+1) 0 from hdb.1.symm]
      at htri
    have hnn := glmLength_nonneg ((ks.getD (q+2) defKnot).position -
      (ks.getD q defKnot).position)
    rcases le_or_lt 0 δ with hpos | hneg
    · have h1 := hda.2
      linarith
    · linarith

/-- The central invariant of the in-place merge loop: starting from read
cursor `i1` with previously emitted knot at original index `q` (where either
`q = i1`, or `q+1 = i1` after a keep-`B` merge), every pair of consecutive
emitted knots stays strictly farther apart than `δ`, provided all the
pre-merge inter-knot distances do. -/
theorem mergeAux_chain (ks : List VCurveKnot) (d : List ℝ) (m : ℕ) (δ : ℝ)
    (hd : ∀ t, t + 1 < m →
      d.getD t 0 = glmLength ((ks.getD (t+1) defKnot).position -
        (ks.getD t defKnot).position) ∧ δ < d.getD t 0) :
    ∀ K i1 q, m - i1 ≤ K →
      (q = i1 ∨ (q + 1 = i1 ∧ 4 * d.getD q 0 < d.getD (q+1) 0)) →
      List.Chain' (fun a b => δ < glmLength (b.position - a.position))
        (ks.getD q defKnot :: mergeAux ks d m i1) := by
  intro K
  induction K with
  | zero =>
    intro i1 q hK hq
    have hbr : ¬ i1 + 3 < m := by omega
    rw [mergeAux, dif_neg hbr]
    have hlen : m - (i1 + 1) = 0 := by omega
    rw [hlen]
    simp
  | succ n ih =>
    intro i1 q hK hq
    by_cases hbr : i1 + 3 < m
    · rw [mergeAux, dif_pos hbr]
      by_cases hcrit : 4 * d.getD (i1+1) 0 < d.getD i1 0 ∧
          4 * d.getD (i1+1) 0 < d.getD (i1+2) 0
      · rw [if_pos hcrit]
        by_cases hang : (ks.getD (i1+1) defKnot).angle <
            (ks.getD (i1+2) defKnot).angle
        · -- merge, keep C = ks[i1+2]
          rw [if_pos hang, List.chain'_cons]
          refine ⟨?_, ih (i1+2) (i1+2) (by omega) (Or.inl rfl)⟩
          rcases hq with rfl | ⟨hq1, hpast⟩
          · -- q = i1: the emitted pair skips exactly ks[q+1]
            have hda := hd q (by omega)
            have hdb := hd (q+1) (by omega)
            simp only [(by omega : q + 1 + 1 = q + 2)] at hdb
            -- D(q) ≤ |K(q+2) - K(q)| + D(q+1)
            have htri := glmLength_tri (ks.getD q defKnot).position
              (ks.getD (q+2) defKnot).position (ks.getD (q+1) defKnot).position
            rw [show glmLength ((ks.getD (q+1) defKnot).position -
                (ks.getD q defKnot).position) = d.getD q 0 from hda.1.symm]
              at htri
            rw [glmLength_sub_comm ((ks.getD (q+1) defKnot).position)
              ((ks.getD (q+2) defKnot).position)] at htri
            rw [show glmLength ((ks.getD (q+2) defKnot).position -
                (ks.getD (q+1) defKnot).position) = d.getD (q+1) 0 from
                hdb.1.symm] at htri
            have hnn := glmLength_nonneg ((ks.getD (q+2) defKnot).position -
              (ks.getD q defKnot).position)
            have h1 := hcrit.1
            have h2 := hdb.2
            rcases le_or_lt 0 δ with hpos | hneg
            · linarith
            · linarith
          · -- q+1 = i1: the emitted pair skips ks[q+1] and ks[q+2]
            subst hq1
            simp only [(by omega : q + 1 + 1 = q + 2),
              (by omega : q + 1 + 2 = q + 3)] at hcrit ⊢
            have hda := hd q (by omega)
            have hdb := hd (q+1) (by omega)
            have hdc := hd (q+2) (by omega)
            simp only [(by omega : q + 1 + 1 = q + 2)] at hdb
            simp only [(by omega : q + 2 + 1 = q + 3)] at hdc
            -- D(q+1) ≤ D(q) + |K(q+2) - K(q)|
            have ht1 := glmLength_tri (ks.getD (q+1) defKnot).position
              (ks.getD q defKnot).position (ks.getD (q+2) defKnot).position
            rw [glmLength_sub_comm ((ks.getD q defKnot).position)
              ((ks.getD (q+1) defKnot).position), ← hda.1] at ht1
            rw [show glmLength ((ks.getD (q+2) defKnot).position -
                (ks.getD (q+1) defKnot).position) = d.getD (q+1) 0 from
                hdb.1.symm] at ht1
            -- |K(q+2) - K(q)| ≤ |K(q+3) - K(q)| + D(q+2)
            have ht2 := glmLength_tri (ks.getD q defKnot).position
              (ks.getD (q+3) defKnot).position (ks.getD (q+2) defKnot).position
            rw [glmLength_sub_comm ((ks.getD (q+2) defKnot).position)
              ((ks.getD (q+3) defKnot).position)] at ht2
            rw [show glmLength ((ks.getD (q+3) defKnot).position -
                (ks.getD (q+2) defKnot).position) = d.getD (q+2) 0 from
                hdc.1.symm] at ht2
            have hnn := glmLength_nonneg ((ks.getD (q+3) defKnot).position -
              (ks.getD q defKnot).position)
            have h1 := hcrit.1
            have h2 := hda.2
            rcases le_or_lt 0 δ with hpos | hneg
            · linarith
            · linarith
        · -- merge, keep B = ks[i1+1]
          rw [if_neg hang, List.chain'_cons]
          refine ⟨merge_link ks d m δ hd i1 q hq (by omega),
            ih (i1+2) (i1+1) (by omega) (Or.inr ⟨rfl, hcrit.2⟩)⟩
      · -- no merge: emit B = ks[i1+1]
        rw [if_neg hcrit, List.chain'_cons]
        refine ⟨merge_link ks d m δ hd i1 q hq (by omega),
          ih (i1+1) (i1+1) (by omega) (Or.inl rfl)⟩
    · -- trailing copy loop
      rw [mergeAux, dif_neg hbr]
      refine chain'_cons_range'_map _ _ _ (m - (i1+1)) (i1+1) ?_ ?_
      · intro hlen
        exact merge_link ks d m δ hd i1 q hq (by omega)
      · intro t ht1 ht2
        have htm : t + 1 < m := by omega
        have h := hd t htm
        rw [← h.1]
        exact h.2

/-- Spacing is preserved (strictly) by the whole merge pass. -/
theorem mergePass_chain (ks : List VCurveKnot) (d : List ℝ) (δ : ℝ)
    (hne : ks ≠ [])
    (hd : ∀ t, t + 1 < ks.length →
      d.getD t 0 = glmLength ((ks.getD (t+1) defKnot).position -
        (ks.getD t defKnot).position) ∧ δ < d.getD t 0) :
    List.Chain' (fun a b => δ < glmLength (b.position - a.position))
      (mergePass ks d) := by
  rw [mergePass, if_neg (by simpa using hne)]
  exact mergeAux_chain ks d ks.length δ hd ks.length 0 0 (by omega) (Or.inl rfl)

/-- The merge pass never empties the knot list. -/
theorem mergePass_ne_nil (ks : List VCurveKnot) (d : List ℝ) (hne : ks ≠ []) :
    mergePass ks d ≠ [] := by
  rw [mergePass, if_neg (by simpa using hne)]
  exact List.cons_ne_nil _ _

/-!  ## C5 — post-merge minimum spacing -/

/-- C5 counterexample: four collinear knots at unit spacing (`d_min = 1`)
satisfy the pass's entry hypothesis, no merge triggers, and the post-merge
spacing is still `1`, which is *not* at least `2·d_min = 2`. -/
theorem merge_spacing_two_dmin_cex :
    (∀ t, t + 1 < ([kE0, kE1, kE2, kE3] : List VCurveKnot).length →
      [(1 : ℝ), 1, 1].getD t 0 =
        glmLength ((([kE0, kE1, kE2, kE3] : List VCurveKnot).getD (t+1)
            defKnot).position -
          (([kE0, kE1, kE2, kE3] : List VCurveKnot).getD t defKnot).position) ∧
      (1 : ℝ) ≤ [(1 : ℝ), 1, 1].getD t 0) ∧
    mergePass [kE0, kE1, kE2, kE3] [(1 : ℝ), 1, 1] = [kE0, kE1, kE2, kE3] ∧
    glmLength ((kE1.position : Vec2) - kE0.position) = 1 ∧
    ¬ (2 * 1 ≤ glmLength ((kE1.position : Vec2) - kE0.position)) := by
  have hglm : ∀ x : ℝ, glmLength ((x + 1, (0 : ℝ)) - (x, (0 : ℝ))) = 1 := by
    intro x
    have h : ((x + 1, (0 : ℝ)) : Vec2) - (x, (0 : ℝ)) = ((1 : ℝ), (0 : ℝ)) := by
      simp [Prod.ext_iff]
    rw [h, glmLength_one_zero]
  have h01 : glmLength ((kE1.position : Vec2) - kE0.position) = 1 := by
    have := hglm 0
    simpa [kE0, kE1] using this
  have h12 : glmLength ((kE2.position : Vec2) - kE1.position) = 1 := by
    rw [show (kE2.position : Vec2) - kE1.position = ((1 : ℝ), (0 : ℝ)) from by
      norm_num [kE1, kE2, Prod.ext_iff], glmLength_one_zero]
  have h23 : glmLength ((kE3.position : Vec2) - kE2.position) = 1 := by
    rw [show (kE3.position : Vec2) - kE2.position = ((1 : ℝ), (0 : ℝ)) from by
      norm_num [kE2, kE3, Prod.ext_iff], glmLength_one_zero]
  refine ⟨?_, ?_, h01, by norm_num [h01]⟩
  · intro t ht
    have ht3 : t < 3 := by simp at ht; omega
    interval_cases t
    · simpa [List.getD] using h01.symm
    · simpa [List.getD] using h12.symm
    · simpa [List.getD] using h23.symm
  · rw [mergePass, if_neg (by simp)]
    rw [mergeAux, dif_pos (by norm_num)]
    rw [if_neg (by norm_num [List.getD])]
    rw [mergeAux, dif_neg (by norm_num)]
    simp [List.range', List.getD]

/-- C5 amended: if every pre-merge inter-knot distance is at least `d_min`
(with `d_min ≥ 0`), then after the merge pass every pair of consecutive
knots is still at least `d_min` apart — i.e. the post-merge minimum spacing
is at least `min((r-2)·d_min, d_min) = d_min` for `r = 4`, not `2·d_min` —
and for `d_min > 0` the pass never produces coincident consecutive knots. -/
theorem merge_spacing_dmin (ks : List VCurveKnot) (d : List ℝ) (dmin : ℝ)
    (hne : ks ≠ [])
    (hd : ∀ t, t + 1 < ks.length →
      d.getD t 0 = glmLength ((ks.getD (t+1) defKnot).position -
        (ks.getD t defKnot).position) ∧ dmin ≤ d.getD t 0) :
    List.Chain' (fun a b => dmin ≤ glmLength (b.position - a.position))
      (mergePass ks d) ∧
    (0 < dmin → List.Chain' (fun a b => a.position ≠ b.position)
      (mergePass ks d)) := by
  have key : ∀ δ', δ' < dmin →
      List.Chain' (fun a b => δ' < glmLength (b.position - a.position))
        (mergePass ks d) := by
    intro δ' hδ
    exact mergePass_chain ks d δ' hne
      (fun t ht => ⟨(hd t ht).1, lt_of_lt_of_le hδ (hd t ht).2⟩)
  have hle : List.Chain' (fun a b => dmin ≤ glmLength (b.position - a.position))
      (mergePass ks d) := by
    rw [List.chain'_iff_get]
    intro i hi
    apply le_of_forall_lt
    intro c hc
    exact (List.chain'_iff_get.mp (key c hc)) i hi
  refine ⟨hle, fun hdm => ?_⟩
  refine hle.imp ?_
  intro a b hab heq
  rw [heq, glmLength_sub_self] at hab
  linarith

/-- C5 witness: the amended spacing bound on the concrete collinear
four-knot example with `d_min = 1`. -/
theorem merge_spacing_dmin_witness :
    (([kE0, kE1, kE2, kE3] : List VCurveKnot) ≠ []) ∧
    List.Chain' (fun a b => (1 : ℝ) ≤ glmLength (b.position - a.position))
      (mergePass [kE0, kE1, kE2, kE3] [(1 : ℝ), 1, 1]) := by
  have hne : ([kE0, kE1, kE2, kE3] : List VCurveKnot) ≠ [] := by simp
  have hglm : ∀ x : ℝ, glmLength ((x + 1, (0 : ℝ)) - (x, (0 : ℝ))) = 1 := by
    intro x
    have h : ((x + 1, (0 : ℝ)) : Vec2) - (x, (0 : ℝ)) = ((1 : ℝ), (0 : ℝ)) := by
      simp [Prod.ext_iff]
    rw [h, glmLength_one_zero]
  have hd : ∀ t, t + 1 < ([kE0, kE1, kE2, kE3] : List VCurveKnot).length →
      [(1 : ℝ), 1, 1].getD t 0 =
        glmLength ((([kE0, kE1, kE2, kE3] : List VCurveKnot).getD (t+1)
            defKnot).position -
          (([kE0, kE1, kE2, kE3] : List VCurveKnot).getD t defKnot).position) ∧
      (1 : ℝ) ≤ [(1 : ℝ), 1, 1].getD t 0 := by
    intro t ht
    have ht3 : t < 3 := by simp at ht; omega
    interval_cases t
    · constructor
      · norm_num [List.getD, kE0, kE1]
        rw [glmLength_one_zero]
      · norm_num [List.getD]
    · constructor
      · norm_num [List.getD, kE1, kE2]
        rw [glmLength_one_zero]
      · norm_num [List.getD]
    · constructor
      · norm_num [List.getD, kE2, kE3]
        rw [glmLength_one_zero]
      · norm_num [List.getD]
  exact ⟨hne, (merge_spacing_dmin [kE0, kE1, kE2, kE3] [(1 : ℝ), 1, 1] 1 hne hd).1⟩

/-!  ## The dedup pass and the knot pipeline invariants -/

/-- Generic fold invariant preservation. -/
theorem foldl_invariant {α β : Type} (P : β → Prop) (f : β → α → β) :
    ∀ (l : List α) (init : β), P init → (∀ b a, P b → P (f b a)) →
      P (l.foldl f init) := by
  intro l
  induction l with
  | nil => intro init h _; exact h
  | cons a l ih => intro init h hstep; exact ih (f init a) (hstep init a h) hstep

/-- `getD` at an in-range index does not depend on the default. -/
theorem getD_indep {α : Type} (l : List α) (d1 d2 : α) (i : ℕ)
    (h : i < l.length) : l.getD i d1 = l.getD i d2 := by
  rw [List.getD_eq_getElem _ _ h, List.getD_eq_getElem _ _ h]

/-- `getLastD` is `getD` at the last index. -/
theorem getLastD_eq_getD {α : Type} (l : List α) (d : α) :
    l.getLastD d = l.getD (l.length - 1) d := by
  rw [List.getLastD_eq_getLast?, List.getLast?_eq_getElem?,
    List.getD_eq_getElem?_getD]

/-- The dedup pass always yields at least one knot, one fewer recorded
distance than knots, and records exactly the distances of consecutive kept
knots, all strictly greater than `res`. -/
theorem dedupPass_spec (res : ℝ) (rpos : List Vec2) (rwid : List ℝ) :
    (dedupPass res rpos rwid).1 ≠ [] ∧
    (dedupPass res rpos rwid).2.length + 1 = (dedupPass res rpos rwid).1.length ∧
    ∀ t, t + 1 < (dedupPass res rpos rwid).1.length →
      (dedupPass res rpos rwid).2.getD t 0 =
        glmLength (((dedupPass res rpos rwid).1.getD (t+1) defKnot).position -
          ((dedupPass res rpos rwid).1.getD t defKnot).position) ∧
      res < (dedupPass res rpos rwid).2.getD t 0 := by
  have main := foldl_invariant
    (fun acc : List VCurveKnot × List ℝ =>
      acc.1 ≠ [] ∧ acc.2.length + 1 = acc.1.length ∧
      ∀ t, t + 1 < acc.1.length →
        acc.2.getD t 0 =
          glmLength ((acc.1.getD (t+1) defKnot).position -
            (acc.1.getD t defKnot).position) ∧
        res < acc.2.getD t 0)
    (fun acc i =>
      if glmLength (rpos.getD i ((0 : ℝ), (0 : ℝ)) -
          (acc.1.getLastD ⟨rpos.getD 0 ((0 : ℝ), (0 : ℝ)), rwid.getD 0 0, 0,
            false⟩).position) > res then
        (acc.1 ++ [⟨rpos.getD i ((0 : ℝ), (0 : ℝ)), rwid.getD i 0, 0, false⟩],
          acc.2 ++ [glmLength (rpos.getD i ((0 : ℝ), (0 : ℝ)) -
            (acc.1.getLastD ⟨rpos.getD 0 ((0 : ℝ), (0 : ℝ)), rwid.getD 0 0, 0,
              false⟩).position)])
      else acc)
    (List.range' 1 (rpos.length - 1))
    ([⟨rpos.getD 0 ((0 : ℝ), (0 : ℝ)), rwid.getD 0 0, 0, false⟩], [])
    (by
      refine ⟨by simp, by simp, ?_⟩
      intro t ht
      simp at ht)
    ?step
  · exact main
  case step =>
    rintro ⟨ksa, da⟩ i ⟨hne, hlen, hlinks⟩
    dsimp only at hne hlen hlinks ⊢
    split_ifs with hds
    · refine ⟨by simp [hne], by simp [← hlen], ?_⟩
      intro t ht
      simp only [List.length_append, List.length_singleton] at ht
      rcases lt_or_ge (t+1) ksa.length with hlt | hge
      · rw [List.getD_append _ _ _ _ (by omega), List.getD_append _ _ _ _ hlt,
          List.getD_append _ _ _ _ (by omega)]
        exact hlinks t hlt
      · have hteq : t + 1 = ksa.length := by omega
        have hlast : ksa.getLastD (⟨rpos.getD 0 ((0 : ℝ), (0 : ℝ)),
            rwid.getD 0 0, 0, false⟩ : VCurveKnot) = ksa.getD t defKnot := by
          rw [getLastD_eq_getD, (by omega : ksa.length - 1 = t)]
          exact getD_indep _ _ _ _ (by omega)
        have hk2 : (ksa ++ [(⟨rpos.getD i ((0 : ℝ), (0 : ℝ)), rwid.getD i 0, 0,
            false⟩ : VCurveKnot)]).getD (t+1) defKnot =
            ⟨rpos.getD i ((0 : ℝ), (0 : ℝ)), rwid.getD i 0, 0, false⟩ := by
          rw [List.getD_append_right _ _ _ _ (by omega), hteq, Nat.sub_self]
          simp [List.getD]
        have hk1 : (ksa ++ [(⟨rpos.getD i ((0 : ℝ), (0 : ℝ)), rwid.getD i 0, 0,
            false⟩ : VCurveKnot)]).getD t defKnot = ksa.getD t defKnot :=
          List.getD_append _ _ _ _ (by omega)
        have hd2 : (da ++ [glmLength (rpos.getD i ((0 : ℝ), (0 : ℝ)) -
            (ksa.getLastD ⟨rpos.getD 0 ((0 : ℝ), (0 : ℝ)), rwid.getD 0 0, 0,
              false⟩).position)]).getD t 0 =
            glmLength (rpos.getD i ((0 : ℝ), (0 : ℝ)) -
              (ksa.getLastD ⟨rpos.getD 0 ((0 : ℝ), (0 : ℝ)), rwid.getD 0 0, 0,
                false⟩).position) := by
          rw [List.getD_append_right _ _ _ _ (by omega),
            (by omega : t - da.length = 0)]
          simp [List.getD]
        rw [hk2, hk1, hd2, ← hlast]
        exact ⟨rfl, hds⟩
    · exact ⟨hne, hlen, hlinks⟩

/-- `getD` through a map over `List.range`. -/
theorem getD_map_range {α : Type} (m i : ℕ) (g : ℕ → α) (dflt : α)
    (h : i < m) : ((List.range m).map g).getD i dflt = g i := by
  rw [List.getD_eq_getElem _ _ (by simpa using h)]
  simp

theorem setAngles_length (f : Vec2 → Vec2 → Vec2 → ℝ) (ks : List VCurveKnot) :
    (setAngles f ks).length = ks.length := by
  simp [setAngles]

theorem setAngles_position (f : Vec2 → Vec2 → Vec2 → ℝ) (ks : List VCurveKnot)
    (i : ℕ) :
    ((setAngles f ks).getD i defKnot).position =
      (ks.getD i defKnot).position := by
  by_cases h : i < ks.length
  · rw [setAngles, getD_map_range _ _ _ _ h]
    split_ifs <;> rfl
  · rw [List.getD_eq_default _ _ (by simpa [setAngles_length] using h),
      List.getD_eq_default _ _ (by omega)]

theorem classifyCorners_length (θ : ℝ) (ks : List VCurveKnot) :
    (classifyCorners θ ks).length = ks.length := by
  simp [classifyCorners]

theorem classifyCorners_getD (θ : ℝ) (ks : List VCurveKnot) (i : ℕ)
    (h : i < ks.length) :
    (classifyCorners θ ks).getD i defKnot =
      (if i = 0 ∨ i = ks.length - 1 then
        { ks.getD i defKnot with isCorner := true }
      else
        { ks.getD i defKnot with
          isCorner := if (ks.getD i defKnot).angle > θ then true else false }) := by
  rw [classifyCorners, getD_map_range _ _ _ _ h]

theorem classifyCorners_position (θ : ℝ) (ks : List VCurveKnot) (i : ℕ) :
    ((classifyCorners θ ks).getD i defKnot).position =
      (ks.getD i defKnot).position := by
  by_cases h : i < ks.length
  · rw [classifyCorners_getD _ _ _ h]
    split_ifs <;> rfl
  · rw [List.getD_eq_default _ _ (by simpa [classifyCorners_length] using h),
      List.getD_eq_default _ _ (by omega)]

/-- Spacing chains transfer across passes that keep positions pointwise. -/
theorem chain'_spaced_transfer (δ : ℝ) (l l' : List VCurveKnot)
    (hlen : l'.length = l.length)
    (hpos : ∀ i, i < l.length →
      (l'.getD i defKnot).position = (l.getD i defKnot).position)
    (h : List.Chain' (fun a b => δ < glmLength (b.position - a.position)) l) :
    List.Chain' (fun a b => δ < glmLength (b.position - a.position)) l' := by
  rw [List.chain'_iff_get] at h ⊢
  intro i hi
  have hi1 : i < l.length - 1 := by omega
  have hh := h i hi1
  rw [List.get_eq_getElem, List.get_eq_getElem] at hh ⊢
  rw [← List.getD_eq_getElem l defKnot (by omega),
    ← List.getD_eq_getElem l defKnot (by omega)] at hh
  rw [← List.getD_eq_getElem l' defKnot (by omega),
    ← List.getD_eq_getElem l' defKnot (by omega)]
  rw [hpos i (by omega), hpos (i+1) (by omega)]
  exact hh

/-- A `Chain'` fact read off at adjacent `getD` indices. -/
theorem chain'_getD {α : Type} (R : α → α → Prop) (l : List α) (dflt : α)
    (h : List.Chain' R l) (i : ℕ) (hi : i + 1 < l.length) :
    R (l.getD i dflt) (l.getD (i+1) dflt) := by
  rw [List.chain'_iff_get] at h
  have hh := h i (by omega)
  rw [List.get_eq_getElem, List.get_eq_getElem] at hh
  rw [List.getD_eq_getElem _ _ (by omega), List.getD_eq_getElem _ _ hi]
  exact hh

/-- The combined facts of `computeKnots_` used by the invariants claims:
non-emptiness, corner ends, the interior classification rule, and the
strict spacing bound `res = max(10·eps, inputSamples[0].resolution)` on
consecutive knots. -/
theorem computeKnots_facts (params : VCurveParams) (ext : VCurveExternals)
    (inp : List VCurveInputSample) (rpos : List Vec2) (rwid : List ℝ) :
    computeKnots params ext inp rpos rwid ≠ [] ∧
    ((computeKnots params ext inp rpos rwid).getD 0 defKnot).isCorner = true ∧
    ((computeKnots params ext inp rpos rwid).getLastD defKnot).isCorner =
      true ∧
    (∀ i, 0 < i → i + 1 < (computeKnots params ext inp rpos rwid).length →
      (((computeKnots params ext inp rpos rwid).getD i defKnot).isCorner =
          true ↔
        params.maxSmoothKnotAngle <
          ((computeKnots params ext inp rpos rwid).getD i defKnot).angle)) ∧
    List.Chain' (fun a b =>
        max (10 * vceps) (inp.getD 0 defIS).resolution <
          glmLength (b.position - a.position))
      (computeKnots params ext inp rpos rwid) := by
  set res := max (10 * vceps) (inp.getD 0 defIS).resolution with hres
  obtain ⟨hne0, hlen0, hlinks0⟩ := dedupPass_spec res rpos rwid
  set dk := dedupPass res rpos rwid with hdk
  set ks1 := setAngles ext.computeSupplementaryAngle dk.1 with hks1
  set ks2 := mergePass ks1 dk.2 with hks2
  set ks3 := setAngles ext.computeSupplementaryAngle ks2 with hks3
  have hck : computeKnots params ext inp rpos rwid =
      classifyCorners params.maxSmoothKnotAngle ks3 := rfl
  have hlen1 : ks1.length = dk.1.length := setAngles_length _ _
  have hne1 : ks1 ≠ [] := by
    intro h
    apply hne0
    have := congrArg List.length h
    rw [hlen1] at this
    exact List.length_eq_zero.mp this
  have hd1 : ∀ t, t + 1 < ks1.length →
      dk.2.getD t 0 = glmLength ((ks1.getD (t+1) defKnot).position -
        (ks1.getD t defKnot).position) ∧ res < dk.2.getD t 0 := by
    intro t ht
    rw [hlen1] at ht
    have h := hlinks0 t ht
    rw [hks1, setAngles_position, setAngles_position]
    exact h
  have hchain2 : List.Chain'
      (fun a b => res < glmLength (b.position - a.position)) ks2 :=
    mergePass_chain ks1 dk.2 res hne1 hd1
  have hne2 : ks2 ≠ [] := mergePass_ne_nil ks1 dk.2 hne1
  have hlen3 : ks3.length = ks2.length := setAngles_length _ _
  have hne3 : ks3 ≠ [] := by
    intro h
    apply hne2
    have := congrArg List.length h
    rw [hlen3] at this
    exact List.length_eq_zero.mp this
  have hchain3 : List.Chain'
      (fun a b => res < glmLength (b.position - a.position)) ks3 :=
    chain'_spaced_transfer res ks2 ks3 hlen3
      (fun i _ => setAngles_position _ _ _) hchain2
  have hlen4 : (classifyCorners params.maxSmoothKnotAngle ks3).length =
      ks3.length := classifyCorners_length _ _
  have hne4 : classifyCorners params.maxSmoothKnotAngle ks3 ≠ [] := by
    intro h
    apply hne3
    have := congrArg List.length h
    rw [hlen4] at this
    exact List.length_eq_zero.mp this
  have hlen3pos : 0 < ks3.length := by
    cases h3 : ks3 with
    | nil => exact absurd h3 hne3
    | cons a l => simp
  refine ⟨by rw [hck]; exact hne4, ?_, ?_, ?_, ?_⟩
  · rw [hck, classifyCorners_getD _ _ _ (by omega)]
    rw [if_pos (Or.inl rfl)]
  · rw [hck, getLastD_eq_getD, hlen4,
      classifyCorners_getD _ _ _ (by omega)]
    rw [if_pos (Or.inr rfl)]
  · intro i hi0 hi1
    rw [hck, hlen4] at hi1
    rw [hck, classifyCorners_getD _ _ _ (by omega)]
    rw [if_neg (by omega : ¬ (i = 0 ∨ i = ks3.length - 1))]
    constructor
    · intro h
      by_contra hcon
      simp only [gt_iff_lt, if_neg hcon] at h
      exact Bool.false_ne_true h
    · intro h
      simp only [gt_iff_lt, if_pos h]
  · rw [hck]
    exact chain'_spaced_transfer res ks3 _ hlen4
      (fun i _ => classifyCorners_position _ _ _) hchain3

/-- `appendInputSample` never returns an empty history. -/
theorem appendInputSample_ne_nil (hist : List VCurveInputSample)
    (s : VCurveInputSample) : appendInputSample hist s ≠ [] := by
  simp only [appendInputSample]
  split_ifs with h1 h2
  · simp
  · simp
  · simpa using h1

/-- The projections of one `continueFit` step in terms of each other. -/
theorem continueFit_proj (params : VCurveParams) (ext : VCurveExternals)
    (st : VCurveState) (s : VCurveInputSample) :
    (continueFit params ext st s).inputSamples =
      appendInputSample st.inputSamples s ∧
    (continueFit params ext st s).knots =
      computeKnots params ext (continueFit params ext st s).inputSamples
        (continueFit params ext st s).regPositions
        (continueFit params ext st s).regWidths ∧
    (continueFit params ext st s).samples =
      computeSamples params ext (continueFit params ext st s).knots := by
  simp [continueFit]

/-- After a non-empty stroke, the state's derived collections are exactly
the pipeline functions applied to the current (non-empty) input history. -/
theorem runStroke_last (params : VCurveParams) (ext : VCurveExternals)
    (st0 : VCurveState) (raw : List VCurveInputSample) (h : raw ≠ []) :
    (runStroke params ext st0 raw).inputSamples ≠ [] ∧
    (runStroke params ext st0 raw).knots =
      computeKnots params ext (runStroke params ext st0 raw).inputSamples
        (runStroke params ext st0 raw).regPositions
        (runStroke params ext st0 raw).regWidths ∧
    (runStroke params ext st0 raw).samples =
      computeSamples params ext (runStroke params ext st0 raw).knots := by
  rcases List.eq_nil_or_concat raw with rfl | ⟨L, b, rfl⟩
  · exact absurd rfl h
  · have hrun : runStroke params ext st0 (L.concat b) =
        continueFit params ext
          (List.foldl (continueFit params ext) st0.clear L) b := by
      rw [runStroke, List.concat_eq_append, List.foldl_concat]
    rw [hrun]
    refine ⟨?_, (continueFit_proj params ext _ b).2.1,
      (continueFit_proj params ext _ b).2.2⟩
    rw [(continueFit_proj params ext _ b).1]
    exact appendInputSample_ne_nil _ _

/-!  ## C4 — knot sequence invariants -/

/-- C4: for every non-empty input stroke, the knot sequence is non-empty,
its first and last knots are corners, every interior knot is a corner
exactly when its angle exceeds `maxSmoothKnotAngle`, and consecutive knot
positions differ by more than `max(10·eps, firstSample.resolution)` with
`eps = 1e-10`. -/
theorem knots_invariants_spec (params : VCurveParams) (ext : VCurveExternals)
    (st0 : VCurveState) (raw : List VCurveInputSample) (hraw : raw ≠ []) :
    (runStroke params ext st0 raw).knots ≠ [] ∧
    (((runStroke params ext st0 raw).knots.getD 0 defKnot).isCorner = true) ∧
    (((runStroke params ext st0 raw).knots.getLastD defKnot).isCorner =
      true) ∧
    (∀ i, 0 < i → i + 1 < (runStroke params ext st0 raw).knots.length →
      ((((runStroke params ext st0 raw).knots.getD i defKnot).isCorner =
          true) ↔
        params.maxSmoothKnotAngle <
          ((runStroke params ext st0 raw).knots.getD i defKnot).angle)) ∧
    (∀ i, i + 1 < (runStroke params ext st0 raw).knots.length →
      max (10 * vceps)
          (((runStroke params ext st0 raw).inputSamples.getD 0
            defIS).resolution) <
        glmLength
          (((runStroke params ext st0 raw).knots.getD (i+1) defKnot).position -
            ((runStroke params ext st0 raw).knots.getD i defKnot).position)) := by
  obtain ⟨hinp, hks, _⟩ := runStroke_last params ext st0 raw hraw
  rw [hks]
  obtain ⟨h1, h2, h3, h4, h5⟩ := computeKnots_facts params ext
    (runStroke params ext st0 raw).inputSamples
    (runStroke params ext st0 raw).regPositions
    (runStroke params ext st0 raw).regWidths
  exact ⟨h1, h2, h3, h4, fun i hi => chain'_getD _ _ defKnot h5 i hi⟩

/-- C4 witness: the invariants on a concrete one-sample stroke. -/
theorem knots_invariants_spec_witness :
    (([s00] : List VCurveInputSample) ≠ []) ∧
    (runStroke p0 ext0 emptyState [s00]).knots ≠ [] := by
  have h : ([s00] : List VCurveInputSample) ≠ [] := by simp
  exact ⟨h, (knots_invariants_spec p0 ext0 emptyState [s00] h).1⟩

/-!  ## The sampler machinery for the arclength invariants -/

/-- The subdivision keeps knot `C` at scaffold index 4. -/
theorem subdiv3_four {α : Type} (dyn : α → α → α → α → α) (z a b c d e f : α) :
    subdiv3 dyn z a b c d e f 4 = c := rfl

/-- The subdivision keeps knot `D` at scaffold index 12. -/
theorem subdiv3_twelve {α : Type} (dyn : α → α → α → α → α)
    (z a b c d e f : α) : subdiv3 dyn z a b c d e f 12 = d := rfl

/-- Every fan sample shares the position, width and arclength of `s1`. -/
theorem cornerFan_mem (msa : ℝ) (s0 s1 s2 x : VCurveSample)
    (hx : x ∈ cornerFan msa s0 s1 s2) :
    x.position = s1.position ∧ x.width = s1.width ∧
    x.arclength = s1.arclength := by
  rw [cornerFan] at hx
  rcases List.mem_map.mp hx with ⟨k, _, rfl⟩
  exact ⟨rfl, rfl, rfl⟩

/-- `getLast?` of a non-empty list in terms of `getLastD`. -/
theorem getLast?_eq_getLastD {α : Type} (l : List α) (d : α) (h : l ≠ []) :
    l.getLast? = some (l.getLastD d) := by
  rcases List.exists_cons_of_ne_nil h with ⟨a, t, rfl⟩
  rw [List.getLastD_eq_getLast?]
  cases hc : (a :: t).getLast? with
  | none => simp at hc
  | some v => simp

/-- `Chain'` survives `take`. -/
theorem chain'_take {α : Type} (R : α → α → Prop) (l : List α) (m : ℕ)
    (h : List.Chain' R l) : List.Chain' R (l.take m) := by
  rw [List.chain'_iff_get] at h ⊢
  intro i hi
  rw [List.length_take] at hi
  have hi1 : i < l.length - 1 := by omega
  have hh := h i hi1
  simp only [List.get_eq_getElem] at hh ⊢
  rw [List.getElem_take, List.getElem_take]
  exact hh

/-- `getD` through `take` at an index inside the prefix. -/
theorem getD_take {α : Type} (l : List α) (m i : ℕ) (d : α) (hi : i < m)
    (hil : i < l.length) : (l.take m).getD i d = l.getD i d := by
  rw [List.getD_eq_getElem _ _ (by rw [List.length_take]; omega),
    List.getD_eq_getElem _ _ hil]
  exact List.getElem_take _

/-- The extraction loop: non-empty, starts with `sC`, arclength-chained, and
at least two samples survive whenever the subdivision scaffold still has
knot `D` (index 12) farther than `eps` from `sC`. -/
theorem dedupeLoop_spec (posB : ℕ → Vec2) (widB : ℕ → ℝ) (sC : VCurveSample) :
    dedupeLoop posB widB sC ≠ [] ∧
    (dedupeLoop posB widB sC).getD 0 defSample = sC ∧
    List.Chain' arcLinked (dedupeLoop posB widB sC) ∧
    (vceps < glmLength (posB 12 - sC.position) →
      2 ≤ (dedupeLoop posB widB sC).length) := by
  have hstep : ∀ (acc : List VCurveSample) (k : ℕ),
      (acc ≠ [] ∧ acc.getD 0 defSample = sC ∧ List.Chain' arcLinked acc ∧
        (acc = [sC] ∨ 2 ≤ acc.length)) →
      ((if glmLength (posB k - (acc.getLastD sC).position) > vceps then
          acc ++ [mkRawSample (posB k) (widB k)
            ((acc.getLastD sC).arclength +
              glmLength (posB k - (acc.getLastD sC).position))]
        else acc) ≠ [] ∧
        (if glmLength (posB k - (acc.getLastD sC).position) > vceps then
          acc ++ [mkRawSample (posB k) (widB k)
            ((acc.getLastD sC).arclength +
              glmLength (posB k - (acc.getLastD sC).position))]
        else acc).getD 0 defSample = sC ∧
        List.Chain' arcLinked
          (if glmLength (posB k - (acc.getLastD sC).position) > vceps then
            acc ++ [mkRawSample (posB k) (widB k)
              ((acc.getLastD sC).arclength +
                glmLength (posB k - (acc.getLastD sC).position))]
          else acc) ∧
        ((if glmLength (posB k - (acc.getLastD sC).position) > vceps then
            acc ++ [mkRawSample (posB k) (widB k)
              ((acc.getLastD sC).arclength +
                glmLength (posB k - (acc.getLastD sC).position))]
          else acc) = [sC] ∨
          2 ≤ (if glmLength (posB k - (acc.getLastD sC).position) > vceps then
            acc ++ [mkRawSample (posB k) (widB k)
              ((acc.getLastD sC).arclength +
                glmLength (posB k - (acc.getLastD sC).position))]
          else acc).length)) := by
    rintro acc k ⟨hne, hhead, hchain, hlen⟩
    split_ifs with hds
    · have hpos : 0 < acc.length := List.length_pos.mpr hne
      refine ⟨by simp, ?_, ?_, Or.inr (by simp; omega)⟩
      · rw [List.getD_append _ _ _ _ hpos]
        exact hhead
      · rw [List.chain'_append]
        refine ⟨hchain, List.chain'_singleton _, ?_⟩
        intro x hx y hy
        rw [getLast?_eq_getLastD acc sC hne] at hx
        simp only [Option.mem_def, Option.some.injEq] at hx
        simp only [List.head?_cons, Option.mem_def, Option.some.injEq] at hy
        subst hx
        subst hy
        rfl
    · exact ⟨hne, hhead, hchain, hlen⟩
  have hP := foldl_invariant
    (fun acc : List VCurveSample =>
      acc ≠ [] ∧ acc.getD 0 defSample = sC ∧ List.Chain' arcLinked acc ∧
        (acc = [sC] ∨ 2 ≤ acc.length))
    (fun samples k =>
      if glmLength (posB k - (samples.getLastD sC).position) > vceps then
        samples ++ [mkRawSample (posB k) (widB k)
          ((samples.getLastD sC).arclength +
            glmLength (posB k - (samples.getLastD sC).position))]
      else samples)
    (List.range' 5 8) [sC]
    ⟨by simp, by simp, List.chain'_singleton _, Or.inl rfl⟩ hstep
  have hloop : dedupeLoop posB widB sC = List.foldl
      (fun samples k =>
        if glmLength (posB k - (samples.getLastD sC).position) > vceps then
          samples ++ [mkRawSample (posB k) (widB k)
            ((samples.getLastD sC).arclength +
              glmLength (posB k - (samples.getLastD sC).position))]
        else samples) [sC] (List.range' 5 8) := rfl
  refine ⟨by rw [hloop]; exact hP.1, by rw [hloop]; exact hP.2.1,
    by rw [hloop]; exact hP.2.2.1, ?_⟩
  intro hgap
  have hsplit : List.range' 5 8 = List.range' 5 7 ++ [12] := by decide
  rw [hloop, hsplit, List.foldl_append]
  have hmid := foldl_invariant
    (fun acc : List VCurveSample =>
      acc ≠ [] ∧ acc.getD 0 defSample = sC ∧ List.Chain' arcLinked acc ∧
        (acc = [sC] ∨ 2 ≤ acc.length))
    (fun samples k =>
      if glmLength (posB k - (samples.getLastD sC).position) > vceps then
        samples ++ [mkRawSample (posB k) (widB k)
          ((samples.getLastD sC).arclength +
            glmLength (posB k - (samples.getLastD sC).position))]
      else samples)
    (List.range' 5 7) [sC]
    ⟨by simp, by simp, List.chain'_singleton _, Or.inl rfl⟩ hstep
  rw [List.foldl_cons, List.foldl_nil]
  rcases hmid.2.2.2 with hone | htwo
  · rw [hone]
    rw [if_pos (by simpa using hgap)]
    simp
  · split_ifs
    · rw [List.length_append, List.length_singleton]
      omega
    · exact htwo

/-- A member of `getLast?` is a member of the list. -/
theorem mem_of_getLast?' {α : Type} (l : List α) (x : α)
    (h : x ∈ l.getLast?) : x ∈ l := by
  rcases List.mem_getLast?_eq_getLast h with ⟨hne, rfl⟩
  exact List.getLast_mem hne

/-- `head?` of a non-empty list in terms of `getD 0`. -/
theorem head?_eq_getD {α : Type} (l : List α) (d : α) (h : l ≠ []) :
    l.head? = some (l.getD 0 d) := by
  rcases l with _ | ⟨a, t⟩
  · exact absurd rfl h
  · simp [List.getD]

/-- When the extraction kept at least two samples, the fallback is a no-op. -/
theorem segFallback_id (posB : ℕ → Vec2) (widB : ℕ → ℝ)
    (samples : List VCurveSample) (h : 2 ≤ samples.length) :
    segFallback posB widB samples = samples := by
  rw [segFallback, if_neg (by omega)]

theorem assignTangents_length (c : Bool) (p : VCurveSample)
    (ls : List VCurveSample) : (assignTangents c p ls).length = ls.length := by
  simp [assignTangents]

/-- The tangent pass keeps position, width and arclength pointwise. -/
theorem assignTangents_getD (c : Bool) (p : VCurveSample)
    (ls : List VCurveSample) (i : ℕ) (h : i < ls.length) :
    ((assignTangents c p ls).getD i defSample).position =
      (ls.getD i defSample).position ∧
    ((assignTangents c p ls).getD i defSample).width =
      (ls.getD i defSample).width ∧
    ((assignTangents c p ls).getD i defSample).arclength =
      (ls.getD i defSample).arclength := by
  rw [assignTangents, getD_map_range _ _ _ _ h]
  dsimp only
  split_ifs <;> simp [withTangent]

/-- Arclength chains transfer across passes that keep positions and
arclengths pointwise. -/
theorem chain'_arcLinked_transfer (l l' : List VCurveSample)
    (hlen : l'.length = l.length)
    (hp : ∀ i, i < l.length →
      (l'.getD i defSample).position = (l.getD i defSample).position ∧
      (l'.getD i defSample).arclength = (l.getD i defSample).arclength)
    (h : List.Chain' arcLinked l) : List.Chain' arcLinked l' := by
  rw [List.chain'_iff_get] at h ⊢
  intro i hi
  have hi1 : i < l.length - 1 := by omega
  have hh := h i hi1
  simp only [List.get_eq_getElem] at hh ⊢
  rw [← List.getD_eq_getElem l defSample (by omega),
    ← List.getD_eq_getElem l defSample (by omega)] at hh
  rw [← List.getD_eq_getElem l' defSample (by omega),
    ← List.getD_eq_getElem l' defSample (by omega)]
  unfold arcLinked at hh ⊢
  rw [(hp i (by omega)).1, (hp i (by omega)).2,
    (hp (i+1) (by omega)).1, (hp (i+1) (by omega)).2]
  exact hh

/-- Core facts about a segment's local sample list (after dedup, fallback
and the tangent pass), given that scaffold point 12 is farther than `eps`
from `sC`: at least two samples, arclength-chained, and sample 0 still has
`sC`'s position and arclength. -/
theorem seg_core_facts (posB : ℕ → Vec2) (widB : ℕ → ℝ) (sC : VCurveSample)
    (cCorner : Bool) (prev : VCurveSample)
    (hgap : vceps < glmLength (posB 12 - sC.position)) :
    2 ≤ (assignTangents cCorner prev
      (segFallback posB widB (dedupeLoop posB widB sC))).length ∧
    List.Chain' arcLinked (assignTangents cCorner prev
      (segFallback posB widB (dedupeLoop posB widB sC))) ∧
    ((assignTangents cCorner prev
      (segFallback posB widB (dedupeLoop posB widB sC))).getD 0
        defSample).position = sC.position ∧
    ((assignTangents cCorner prev
      (segFallback posB widB (dedupeLoop posB widB sC))).getD 0
        defSample).arclength = sC.arclength := by
  obtain ⟨hne, hhead, hchain, hlen⟩ := dedupeLoop_spec posB widB sC
  have h2 := hlen hgap
  rw [segFallback_id _ _ _ h2]
  have hlen' := assignTangents_length cCorner prev (dedupeLoop posB widB sC)
  have hpt := fun i hi => assignTangents_getD cCorner prev
    (dedupeLoop posB widB sC) i hi
  refine ⟨by omega, ?_, ?_, ?_⟩
  · exact chain'_arcLinked_transfer _ _ hlen'
      (fun i hi => ⟨(hpt i hi).1, (hpt i hi).2.2⟩) hchain
  · rw [(hpt 0 (by omega)).1, hhead]
  · rw [(hpt 0 (by omega)).2.2, hhead]

/-- The facts of `seg_core_facts`, stated for `segLocals` with the knot
spacing hypothesis on knots `i` and `i+1`. -/
theorem segLocals_facts (ext : VCurveExternals) (ks : List VCurveKnot)
    (i : ℕ) (acc : List VCurveSample)
    (hCD : vceps < glmLength ((ks.getD (i+1) defKnot).position -
      (ks.getD i defKnot).position)) :
    2 ≤ (segLocals ext ks i acc).length ∧
    List.Chain' arcLinked (segLocals ext ks i acc) ∧
    ((segLocals ext ks i acc).getD 0 defSample).position =
      (ks.getD i defKnot).position ∧
    ((segLocals ext ks i acc).getD 0 defSample).arclength =
      (if i = 0 then 0 else
        (acc.getLastD defSample).arclength +
          glmLength ((ks.getD i defKnot).position -
            (acc.getLastD defSample).position)) := by
  exact seg_core_facts _ _ _ _ _ hCD

/-- `getLastD` of an appended singleton. -/
theorem getLastD_concat {α : Type} (l : List α) (x : α) (d : α) :
    (l ++ [x]).getLastD d = x := by
  rw [getLastD_eq_getD, List.length_append, List.length_singleton]
  rw [List.getD_append_right _ _ _ _ (by omega), (by omega : l.length + 1 - 1 - l.length = 0)]
  rfl

/-- One segment-loop iteration preserves non-emptiness, the arclength chain
and the first emitted sample's arclength. -/
theorem emitSegment_extends (params : VCurveParams) (ext : VCurveExternals)
    (ks : List VCurveKnot) (i : ℕ) (acc : List VCurveSample)
    (hCD : vceps < glmLength ((ks.getD (i+1) defKnot).position -
      (ks.getD i defKnot).position))
    (hacc0 : i = 0 → acc = [])
    (haccne : 0 < i → acc ≠ [])
    (hchain : List.Chain' arcLinked acc) :
    emitSegment params ext ks i acc ≠ [] ∧
    List.Chain' arcLinked (emitSegment params ext ks i acc) ∧
    (i = 0 →
      ((emitSegment params ext ks i acc).getD 0 defSample).arclength = 0) ∧
    (0 < i →
      (emitSegment params ext ks i acc).getD 0 defSample =
        acc.getD 0 defSample) := by
  obtain ⟨hl2, hlch, hlpos, hlarc⟩ := segLocals_facts ext ks i acc hCD
  have hemit : emitSegment params ext ks i acc =
      acc ++
        ((if (ks.getD i defKnot).isCorner ∧ 0 < i then
            cornerFan params.maxSampleAngle (acc.getLastD defSample)
              ((segLocals ext ks i acc).getD 0 defSample)
              ((segLocals ext ks i acc).getD 1 defSample)
          else []) ++
        (segLocals ext ks i acc).take ((segLocals ext ks i acc).length - 1)) := by
    simp only [emitSegment]
    rw [List.append_assoc]
  set locals := segLocals ext ks i acc with hlocals
  set fan := (if (ks.getD i defKnot).isCorner ∧ 0 < i then
      cornerFan params.maxSampleAngle (acc.getLastD defSample)
        (locals.getD 0 defSample) (locals.getD 1 defSample)
    else []) with hfandef
  set tk := locals.take (locals.length - 1) with htkdef
  have htklen : tk.length = locals.length - 1 := by
    rw [htkdef, List.length_take]
    omega
  have htkne : tk ≠ [] := List.length_pos.mp (by omega)
  have htk0 : tk.getD 0 defSample = locals.getD 0 defSample :=
    getD_take locals _ 0 defSample (by omega) (by omega)
  have htkch : List.Chain' arcLinked tk := chain'_take _ _ _ hlch
  have hfanmem : ∀ x ∈ fan,
      x.position = (locals.getD 0 defSample).position ∧
      x.arclength = (locals.getD 0 defSample).arclength := by
    intro x hx
    rw [hfandef] at hx
    split_ifs at hx with hc
    · exact ⟨(cornerFan_mem _ _ _ _ x hx).1, (cornerFan_mem _ _ _ _ x hx).2.2⟩
    · simp at hx
  have hfanch : List.Chain' arcLinked fan := by
    rw [List.chain'_iff_get]
    intro t ht
    have hma := List.get_mem fan t (by omega)
    have hmb := List.get_mem fan (t+1) (by omega)
    obtain ⟨hpa, haa⟩ := hfanmem _ hma
    obtain ⟨hpb, hab⟩ := hfanmem _ hmb
    unfold arcLinked
    rw [hpa, haa, hpb, hab, glmLength_sub_self]
    ring
  have hmidch : List.Chain' arcLinked (fan ++ tk) := by
    rw [List.chain'_append]
    refine ⟨hfanch, htkch, ?_⟩
    intro x hx y hy
    obtain ⟨hpa, haa⟩ := hfanmem _ (mem_of_getLast?' _ _ hx)
    rw [head?_eq_getD tk defSample htkne] at hy
    simp only [Option.mem_def, Option.some.injEq] at hy
    subst hy
    rw [htk0]
    unfold arcLinked
    rw [hpa, haa, glmLength_sub_self]
    ring
  have hmidhead : ∀ y ∈ (fan ++ tk).head?,
      y.position = (locals.getD 0 defSample).position ∧
      y.arclength = (locals.getD 0 defSample).arclength := by
    intro y hy
    rw [List.head?_append] at hy
    cases hfh : fan.head? with
    | none =>
      rw [hfh, Option.none_or] at hy
      rw [head?_eq_getD tk defSample htkne] at hy
      simp only [Option.mem_def, Option.some.injEq] at hy
      subst hy
      rw [htk0]
      exact ⟨rfl, rfl⟩
    | some a =>
      rw [hfh] at hy
      simp only [Option.or] at hy
      simp only [Option.mem_def, Option.some.injEq] at hy
      subst hy
      exact hfanmem _ (List.mem_of_mem_head? (by rw [hfh]; rfl))
  have hch : List.Chain' arcLinked (emitSegment params ext ks i acc) := by
    rw [hemit, List.chain'_append]
    refine ⟨hchain, hmidch, ?_⟩
    intro x hx y hy
    have haccne' : acc ≠ [] := by
      intro hnil
      rw [hnil] at hx
      simp at hx
    have hipos : 0 < i := by
      rcases Nat.eq_zero_or_pos i with h0 | hp
      · exact absurd (hacc0 h0) haccne'
      · exact hp
    have hx' : x = acc.getLastD defSample := by
      rw [getLast?_eq_getLastD acc defSample haccne'] at hx
      simp only [Option.mem_def, Option.some.injEq] at hx
      exact hx.symm
    obtain ⟨hyp, hya⟩ := hmidhead y hy
    subst hx'
    unfold arcLinked
    rw [hyp, hya, hlarc, if_neg (by omega), hlpos]
  refine ⟨?_, hch, ?_, ?_⟩
  · apply List.length_pos.mp
    rw [hemit, List.length_append, List.length_append]
    omega
  · intro h0
    have hfan0 : fan = [] := by
      rw [hfandef, if_neg]
      rintro ⟨_, hlt⟩
      omega
    rw [hemit, hacc0 h0, hfan0]
    simp only [List.nil_append]
    rw [htk0, hlarc, if_pos h0]
  · intro hp
    rw [hemit, List.getD_append _ _ _ _ (List.length_pos.mpr (haccne hp))]

/-- `computeSamples_` on a non-empty, `eps`-spaced knot list: at least one
sample, sample 0 at arclength `0`, the arclength accumulation chain, and the
final sample sitting exactly at the last knot. -/
theorem computeSamples_facts (params : VCurveParams) (ext : VCurveExternals)
    (ks : List VCurveKnot) (hne : ks ≠ [])
    (hkchain : List.Chain'
      (fun a b => vceps < glmLength (b.position - a.position)) ks) :
    computeSamples params ext ks ≠ [] ∧
    ((computeSamples params ext ks).getD 0 defSample).arclength = 0 ∧
    List.Chain' arcLinked (computeSamples params ext ks) ∧
    ((computeSamples params ext ks).getLastD defSample).position =
      (ks.getLastD defKnot).position := by
  have hn1 : 1 ≤ ks.length := List.length_pos.mpr hne
  have hinv : ∀ j, j ≤ ks.length - 1 →
      (j = 0 → (List.range j).foldl
        (fun acc i => emitSegment params ext ks i acc) [] = []) ∧
      List.Chain' arcLinked ((List.range j).foldl
        (fun acc i => emitSegment params ext ks i acc) []) ∧
      (0 < j → (List.range j).foldl
          (fun acc i => emitSegment params ext ks i acc) [] ≠ [] ∧
        (((List.range j).foldl
          (fun acc i => emitSegment params ext ks i acc) []).getD 0
            defSample).arclength = 0) := by
    intro j
    induction j with
    | zero =>
      intro _
      exact ⟨fun _ => rfl, by simp, fun h => absurd h (by omega)⟩
    | succ t iht =>
      intro hj
      obtain ⟨hz, hch, hpos⟩ := iht (by omega)
      rw [List.range_succ, List.foldl_append, List.foldl_cons, List.foldl_nil]
      have hCD := chain'_getD _ ks defKnot hkchain t (by omega)
      have hext := emitSegment_extends params ext ks t
        ((List.range t).foldl (fun acc i => emitSegment params ext ks i acc) [])
        hCD hz (fun hp => (hpos hp).1) hch
      refine ⟨fun h => absurd h (Nat.succ_ne_zero t), hext.2.1,
        fun _ => ⟨hext.1, ?_⟩⟩
      rcases Nat.eq_zero_or_pos t with h0 | hp
      · exact hext.2.2.1 h0
      · rw [hext.2.2.2 hp]
        exact (hpos hp).2
  obtain ⟨hz, hch, hpos⟩ := hinv (ks.length - 1) (le_refl _)
  rcases Nat.lt_or_ge 1 ks.length with hn2 | hn1'
  · -- at least two knots: the body is non-empty
    obtain ⟨hbne, hb0⟩ := hpos (by omega)
    simp only [computeSamples]
    rw [if_neg (by simpa using hbne)]
    refine ⟨by simp, ?_, ?_, ?_⟩
    · rw [List.getD_append _ _ _ _ (List.length_pos.mpr hbne)]
      exact hb0
    · rw [List.chain'_append]
      refine ⟨hch, List.chain'_singleton _, ?_⟩
      intro x hx y hy
      have hx' : x = ((List.range (ks.length - 1)).foldl
          (fun acc i => emitSegment params ext ks i acc) []).getLastD
            defSample := by
        rw [getLast?_eq_getLastD _ defSample hbne] at hx
        simp only [Option.mem_def, Option.some.injEq] at hx
        exact hx.symm
      simp only [List.head?_cons, Option.mem_def, Option.some.injEq] at hy
      subst hy
      subst hx'
      unfold arcLinked
      rfl
    · rw [getLastD_concat, getLastD_eq_getD ks defKnot]
  · -- exactly one knot: the body is empty, only the final sample exists
    have hone : ks.length = 1 := by omega
    have hz' := hz (by omega)
    simp only [computeSamples]
    rw [hz']
    simp only [List.isEmpty_nil, if_true, List.nil_append]
    refine ⟨by simp, by simp [List.getD], ?_, ?_⟩
    · exact List.chain'_singleton _
    · rw [getLastD_eq_getD, getLastD_eq_getD]
      simp [List.getD]

/-- Arclength is non-decreasing along an arclength chain. -/
theorem arcChain_mono (l : List VCurveSample)
    (h : List.Chain' arcLinked l) :
    ∀ i j, i ≤ j → j < l.length →
      (l.getD i defSample).arclength ≤ (l.getD j defSample).arclength := by
  intro i j
  induction j with
  | zero =>
    intro hij _
    rw [Nat.le_zero.mp hij]
  | succ t ih =>
    intro hij hj
    rcases Nat.eq_or_lt_of_le hij with rfl | hlt
    · exact le_refl _
    · have hstep := chain'_getD _ l defSample h t (by omega)
      unfold arcLinked at hstep
      have hnn := glmLength_nonneg ((l.getD (t+1) defSample).position -
        (l.getD t defSample).position)
      have hih := ih (by omega) (by omega)
      linarith

/-!  ## C3 — sample sequence invariants -/

/-- C3: for every non-empty stroke, there is at least one emitted sample,
sample 0 has arclength `0`, each subsequent sample's arclength is the
previous one's plus the Euclidean distance between them (`arcLinked`), so
arclength is non-decreasing, and the final sample's position is exactly the
last knot's position. -/
theorem samples_arclength_spec (params : VCurveParams) (ext : VCurveExternals)
    (st0 : VCurveState) (raw : List VCurveInputSample) (hraw : raw ≠ []) :
    1 ≤ (runStroke params ext st0 raw).samples.length ∧
    (((runStroke params ext st0 raw).samples.getD 0 defSample).arclength =
      0) ∧
    (∀ i, i + 1 < (runStroke params ext st0 raw).samples.length →
      arcLinked ((runStroke params ext st0 raw).samples.getD i defSample)
        ((runStroke params ext st0 raw).samples.getD (i+1) defSample)) ∧
    (∀ i j, i ≤ j → j < (runStroke params ext st0 raw).samples.length →
      ((runStroke params ext st0 raw).samples.getD i defSample).arclength ≤
        ((runStroke params ext st0 raw).samples.getD j defSample).arclength) ∧
    ((runStroke params ext st0 raw).samples.getLastD defSample).position =
      ((runStroke params ext st0 raw).knots.getLastD defKnot).position := by
  obtain ⟨hinp, hks, hss⟩ := runStroke_last params ext st0 raw hraw
  obtain ⟨hkne, _, _, _, hkchain⟩ := computeKnots_facts params ext
    (runStroke params ext st0 raw).inputSamples
    (runStroke params ext st0 raw).regPositions
    (runStroke params ext st0 raw).regWidths
  rw [← hks] at hkne hkchain
  have hvc : List.Chain'
      (fun a b => vceps < glmLength (b.position - a.position))
      (runStroke params ext st0 raw).knots := by
    refine hkchain.imp ?_
    intro a b hab
    refine lt_of_le_of_lt ?_ hab
    refine le_max_of_le_left ?_
    rw [vceps]
    norm_num
  obtain ⟨h1, h2, h3, h4⟩ := computeSamples_facts params ext
    (runStroke params ext st0 raw).knots hkne hvc
  rw [← hss] at h1 h2 h3 h4
  exact ⟨List.length_pos.mpr h1, h2,
    fun i hi => chain'_getD _ _ defSample h3 i hi,
    arcChain_mono _ h3, h4⟩

/-- C3 witness: the sample invariants on a concrete one-sample stroke. -/
theorem samples_arclength_spec_witness :
    (([s00] : List VCurveInputSample) ≠ []) ∧
    ((runStroke p0 ext0 emptyState [s00]).samples.getD 0 defSample).arclength
      = 0 := by
  have h : ([s00] : List VCurveInputSample) ≠ [] := by simp
  exact ⟨h, (samples_arclength_spec p0 ext0 emptyState [s00] h).2.1⟩

end

